import Mathlib

/-!
Verification of the Time-Windowed Retrieval & Append-Only Index subsystem
of the DiscordBot repository.

The JavaScript sources are shallowly embedded as executable Lean
definitions.  JS numbers that hold millisecond timestamps and snowflake
values are modelled as `Int` (every arithmetic operation performed on them
by the embedded code is exactly representable); record IDs are modelled as
`Nat` ordered the way the remote store orders snowflakes.  Asynchronous
remote calls are modelled as a `Channel` oracle returning `Except`;
loops are given explicit fuel (one unit per remote call), and running out
of fuel is the distinguished error `MErr.outOfFuel`, which is never
confused with a thrown JS error (`MErr.thrown`).  The calendar functions
mirror the ECMAScript specification (`DayFromYear`, `MakeDay`,
`MonthFromTime`, mathematical `mod`), which is what the JS `Date` built-in
implements for the local-time accessors used by the sources; the ambient
local timezone is an explicit fixed offset parameter `tz` (milliseconds
added to a UTC instant to obtain local wall-clock time).
-/

/-- A remote record (Discord message) as consumed by the embedded code. -/
structure Msg where
  id : Nat
  createdTimestamp : Int
  authorId : String
  authorUsername : String
  content : String
deriving Repr, DecidableEq

/-- Errors of the model: a thrown JS error, or loop fuel exhaustion
(the latter is an artefact of the embedding, never a behaviour of the code). -/
inductive MErr where
  | thrown (msg : String)
  | outOfFuel
deriving Repr, DecidableEq

/-- A request to the remote store: the three pagination primitives used by
the sources (`fetch` with `before`, `after` or `around`). -/
inductive FetchReq where
  | before (cursor : Option Nat) (limit : Nat)
  | after (cursor : Nat) (limit : Nat)
  | around (target : String) (limit : Nat)
deriving Repr, DecidableEq

/-- A channel is an oracle answering fetch requests; it may fail with a
thrown error message.  Arbitrary oracles model arbitrary store behaviour. -/
def Channel : Type := FetchReq → Except String (List Msg)

/-- Batches are returned newest-first: `fetchBefore` returns the newest
`limit` records strictly older than the cursor (or the globally newest
records when the cursor is absent). -/
def fetchBeforeStore (store : List Msg) (cursor : Option Nat) (limit : Nat) : List Msg :=
  match cursor with
  | none => store.take limit
  | some c => (store.filter (fun m => m.id < c)).take limit

/-- `fetchAfter` returns the `limit` records closest above the cursor
(oldest such records), presented newest-first, as the Discord API does. -/
def fetchAfterStore (store : List Msg) (cursor : Nat) (limit : Nat) : List Msg :=
  ((store.filter (fun m => cursor < m.id)).reverse.take limit).reverse

/-- The simulated remote store: a list of records sorted newest-first.
`around` is answered with the newest records; no claim exercises it through
this channel. -/
def storeChannel (store : List Msg) : Channel := fun req =>
  match req with
  | .before c l => .ok (fetchBeforeStore store c l)
  | .after c l => .ok (fetchAfterStore store c l)
  | .around _ l => .ok (store.take l)

/-- Wellformedness of a simulated store: records appear newest-first with
strictly decreasing IDs and (non-strictly) decreasing timestamps, matching
the snowflake discipline of the remote store. -/
def StoreWF (store : List Msg) : Prop :=
  store.Pairwise (fun a b => b.id < a.id ∧ b.createdTimestamp ≤ a.createdTimestamp)

/-- Discord epoch, January 1 2015 UTC, in milliseconds (source constant). -/
def DISCORD_EPOCH : Int := 1420070400000

/-- Fuel-structural decimal digit count; fuel 400 covers every finite
double (all lie below 1e309). -/
def numDigitsF : Nat → Nat → Nat
  | 0, _ => 1
  | fuel + 1, n => if n < 10 then 1 else numDigitsF fuel (n / 10) + 1

/-- Decimal digit count of a natural number (1 for 0). -/
def numDigits (n : Nat) : Nat := numDigitsF 400 n

/-- Fuel-structural binary logarithm; fuel 1100 covers every finite
double. -/
def log2F : Nat → Nat → Nat
  | 0, _ => 0
  | fuel + 1, n => if n ≤ 1 then 0 else log2F fuel (n / 2) + 1

/-- Rounding of a nonnegative integer to the nearest IEEE-754 double
(round half to even); integers up to 2^53 are exact. -/
def roundNearestDouble (d : Nat) : Nat :=
  if d ≤ 2 ^ 53 then d
  else
    let e := log2F 1100 d
    let ulp := 2 ^ (e - 52)
    let q := d / ulp
    let r := d % ulp
    if ulp < 2 * r ∨ (2 * r = ulp ∧ q % 2 = 1) then (q + 1) * ulp else q * ulp

/-- ECMA-262 shortest round-trip digit search (`Number::toString`, radix
10), for an integer value `v` that is the exact value of a double: find the
smallest significant-digit count `k` whose nearest `k`-digit decimal
converts back to `v`, returning the digits and the count of trailing
zeros.  Trying only the nearest candidate of each length is faithful: the
round-trip interval is symmetric around `v`, so a farther candidate of the
same length cannot convert back when the nearest does not, and for an
integer value a candidate with a fractional part always needs more digits
than the best integer candidate. -/
def ecmaFind (v : Nat) : Nat → Nat → Nat × Nat
  | 0, _ => (v, 0)
  | fuel + 1, k =>
    let p := numDigits v - k
    let s0 := v / 10 ^ p
    let r := v % 10 ^ p
    let s1 := if 10 ^ p < 2 * r ∨ (2 * r = 10 ^ p ∧ s0 % 2 = 1) then s0 + 1 else s0
    if roundNearestDouble (s1 * 10 ^ p) = v then (s1, p)
    else ecmaFind v fuel (k + 1)

/-- Removal of trailing decimal zeros (normalizes the digits `s` of the
exponential form, which ECMA-262 keeps indivisible by 10). -/
def stripTrailingZeros : Nat → Nat → Nat
  | 0, n => n
  | fuel + 1, n => if n % 10 = 0 ∧ 10 ≤ n then stripTrailingZeros fuel (n / 10) else n

/-- ECMA-262 rendering of a nonnegative integer double value: shortest
round-trip digits, fixed notation up to 21 digits, exponential notation
`d.ddd...e+n` beyond.  The argument must be the exact value of a double,
which holds at every call site here: the products of a time-value offset
with 2^22 rescale an exact integer below 2^53 by a power of two. -/
def jsDoubleToString (v : Nat) : String :=
  if v = 0 then "0"
  else
    let sp := ecmaFind v (numDigits v) 1
    let candVal := sp.1 * 10 ^ sp.2
    if numDigits candVal ≤ 21 then Nat.repr candVal
    else
      match (Nat.repr (stripTrailingZeros 400 sp.1)).data with
      | [] => ""
      | [c] => String.mk [c] ++ "e+" ++ Nat.repr (numDigits candVal - 1)
      | c :: rest => String.mk (c :: '.' :: rest) ++ "e+" ++ Nat.repr (numDigits candVal - 1)

/-- Rendering of a JS number holding an integer: the sign, then the
ECMA-262 double rendering of the magnitude. -/
def jsNumToString (n : Int) : String :=
  if n < 0 then "-" ++ jsDoubleToString (-n).toNat else jsDoubleToString n.toNat

/-- The `startsWith('-')` test: the first character is a minus sign. -/
def startsWithDash (s : String) : Bool := s.data.head? == some '-'

/-- Embedding of `dateToSnowflake` (third revision, messageUtils.js):
epoch check, multiply by 2^22, render in decimal, reject a leading minus. -/
def dateToSnowflake (date : Int) : Except MErr String :=
  if date < DISCORD_EPOCH then
    .error (.thrown "date before Discord epoch")
  else
    let snowflake := jsNumToString ((date - DISCORD_EPOCH) * 4194304)
    if startsWithDash snowflake then .error (.thrown "generated negative snowflake")
    else .ok snowflake

/-- Membership test of the JS `Map` keyed by record id. -/
def hasId (map : List Msg) (i : Nat) : Bool := map.any (fun x => x.id == i)

/-- The ascending-timestamp comparison used by every `.sort` call in the
sources. -/
def tsLE (a b : Msg) : Prop := a.createdTimestamp ≤ b.createdTimestamp

instance : DecidableRel tsLE := fun a b => Int.decLe _ _

instance : IsTotal Msg tsLE := ⟨fun a b => Int.le_total _ _⟩

instance : IsTrans Msg tsLE := ⟨fun _ _ _ h1 h2 => Int.le_trans h1 h2⟩

/-- Model of the stable ascending sort `arr.sort((a, b) => a.createdTimestamp
- b.createdTimestamp)`. -/
def tsSorted (l : List Msg) : List Msg := List.insertionSort tsLE l

/-- State of the backward inner loop of `expandFromAnchor`. -/
structure BackStep where
  map : List Msg
  raw : List Msg
  beforeId : Nat
  hitLimit : Bool
  stopTime : Option Int
  reachedStart : Bool
deriving Repr, DecidableEq

/-- Embedding of the backward batch loop body of `expandFromAnchor`
(third revision): break below the window start, insert deduplicated
in-window records subject to the max limit, advance the cursor. -/
def backBatch (s e : Int) (maxN : Nat) :
    List Msg → List Msg → List Msg → Nat → Option Int → BackStep
  | [], map, raw, b, stop => ⟨map, raw, b, false, stop, false⟩
  | msg :: rest, map, raw, b, stop =>
    let raw2 := raw ++ [msg]
    let ts := msg.createdTimestamp
    if ts < s then ⟨map, raw2, b, false, some ts, true⟩
    else if s ≤ ts ∧ ts ≤ e ∧ hasId map msg.id = false then
      let map2 := map ++ [msg]
      if maxN ≤ map2.length then ⟨map2, raw2, b, true, some ts, false⟩
      else backBatch s e maxN rest map2 raw2 msg.id stop
    else backBatch s e maxN rest map raw2 msg.id stop

/-- Outcome of one of the outer fetch loops. -/
structure LoopOut where
  map : List Msg
  raw : List Msg
  hitLimit : Bool
  stopTime : Option Int
  apiCalls : Nat
deriving Repr, DecidableEq

/-- Embedding of the backward while-loop of `expandFromAnchor`.  One unit
of fuel per remote call. -/
def backLoop (ch : Channel) (s e : Int) (maxN : Nat) :
    Nat → List Msg → List Msg → Nat → Option Int → Nat → Except MErr LoopOut
  | 0, _, _, _, _, _ => .error .outOfFuel
  | fuel + 1, map, raw, b, stop, calls =>
    if map.length < maxN then
      match ch (.before (some b) 100) with
      | .error m => .error (.thrown m)
      | .ok [] => .ok ⟨map, raw, false, stop, calls + 1⟩
      | .ok (m0 :: bs) =>
        let st := backBatch s e maxN (m0 :: bs) map raw b stop
        if st.hitLimit then .ok ⟨st.map, st.raw, true, st.stopTime, calls + 1⟩
        else if st.reachedStart then .ok ⟨st.map, st.raw, false, st.stopTime, calls + 1⟩
        else backLoop ch s e maxN fuel st.map st.raw st.beforeId st.stopTime (calls + 1)
    else .ok ⟨map, raw, false, stop, calls⟩

/-- State of the forward inner loop of `expandFromAnchor`. -/
structure FwdStep where
  map : List Msg
  raw : List Msg
  hitLimit : Bool
  stopTime : Option Int
  reachedEnd : Bool
  allBeyond : Bool
deriving Repr, DecidableEq

/-- Embedding of the forward batch loop body of `expandFromAnchor` (third
revision): insert deduplicated in-window records, remember the first record
beyond the end boundary, and track whether the whole batch lies beyond it. -/
def fwdBatch (s e : Int) (maxN : Nat) :
    List Msg → List Msg → List Msg → Option Int → Bool → Bool → FwdStep
  | [], map, raw, stop, re, ab => ⟨map, raw, false, stop, re, ab⟩
  | msg :: rest, map, raw, stop, re, ab =>
    let raw2 := raw ++ [msg]
    let ts := msg.createdTimestamp
    if s ≤ ts ∧ ts ≤ e then
      if hasId map msg.id = false then
        let map2 := map ++ [msg]
        if maxN ≤ map2.length then ⟨map2, raw2, true, some ts, re, false⟩
        else fwdBatch s e maxN rest map2 raw2 stop re false
      else fwdBatch s e maxN rest map raw2 stop re false
    else if e < ts then
      if re then fwdBatch s e maxN rest map raw2 stop re ab
      else fwdBatch s e maxN rest map raw2 (if stop.isNone then some ts else stop) true ab
    else fwdBatch s e maxN rest map raw2 stop re false

/-- Embedding of the forward while-loop of `expandFromAnchor`: the cursor
advances to the newest record of each batch; the loop stops on the limit,
on an empty batch, or when a whole batch lies beyond the end boundary. -/
def fwdLoop (ch : Channel) (s e : Int) (maxN : Nat) :
    Nat → List Msg → List Msg → Nat → Option Int → Bool → Bool → Nat → Except MErr LoopOut
  | 0, _, _, _, _, _, _, _ => .error .outOfFuel
  | fuel + 1, map, raw, a, stop, hit, re, calls =>
    if map.length < maxN ∧ hit = false then
      match ch (.after a 100) with
      | .error m => .error (.thrown m)
      | .ok [] => .ok ⟨map, raw, hit, stop, calls + 1⟩
      | .ok (m0 :: bs) =>
        let st := fwdBatch s e maxN (m0 :: bs) map raw stop re true
        if st.hitLimit then .ok ⟨st.map, st.raw, true, st.stopTime, calls + 1⟩
        else if st.allBeyond ∧ st.reachedEnd then .ok ⟨st.map, st.raw, false, st.stopTime, calls + 1⟩
        else fwdLoop ch s e maxN fuel st.map st.raw m0.id st.stopTime false st.reachedEnd (calls + 1)
    else .ok ⟨map, raw, hit, stop, calls⟩

/-- Result shape of `expandFromAnchor` (sorted records, raw log, limit flag,
boundary timestamp, api call count). -/
structure ExpResult where
  sorted : List Msg
  rawLog : List Msg
  hitLimit : Bool
  stopTime : Option Int
  apiCalls : Nat
deriving Repr, DecidableEq

/-- Embedding of `expandFromAnchor` (third revision, messageUtils.js
lines 800-958): seed the dedup map with the anchor iff it lies inside the
window, walk backward then forward, sort ascending by timestamp. -/
def expandFromAnchor (ch : Channel) (anchorMessage : Option Msg) (startUTC endUTC : Int)
    (maxN fuel : Nat) : Except MErr ExpResult :=
  match anchorMessage with
  | none => .ok ⟨[], [], false, none, 0⟩
  | some anchor =>
    let map0 : List Msg :=
      if startUTC ≤ anchor.createdTimestamp ∧ anchor.createdTimestamp ≤ endUTC then [anchor]
      else []
    match backLoop ch startUTC endUTC maxN fuel map0 [anchor] anchor.id none 0 with
    | .error err => .error err
    | .ok back =>
      match fwdLoop ch startUTC endUTC maxN fuel back.map back.raw anchor.id back.stopTime
          back.hitLimit false back.apiCalls with
      | .error err => .error err
      | .ok fwd => .ok ⟨tsSorted fwd.map, fwd.raw, fwd.hitLimit, fwd.stopTime, fwd.apiCalls⟩

/-- State of the inner loop of the linear `fetchMessages`. -/
structure FmStep where
  map : List Msg
  beforeId : Option Nat
  hitLimit : Bool
  stopTime : Option Int
deriving Repr, DecidableEq

/-- Embedding of the inner batch loop of `fetchMessages` (third revision):
break below the window start, skip records above the window end, insert
deduplicated in-window records subject to the max limit. -/
def fmBatch (s e : Int) (maxN : Nat) :
    List Msg → List Msg → Option Nat → Option Int → FmStep
  | [], map, b, stop => ⟨map, b, false, stop⟩
  | msg :: rest, map, b, stop =>
    let ts := msg.createdTimestamp
    if ts < s then ⟨map, b, false, some ts⟩
    else if e < ts then fmBatch s e maxN rest map (some msg.id) stop
    else if hasId map msg.id = false then
      let map2 := map ++ [msg]
      if maxN ≤ map2.length then ⟨map2, b, true, some ts⟩
      else fmBatch s e maxN rest map2 (some msg.id) stop
    else fmBatch s e maxN rest map (some msg.id) stop

/-- Outcome of the linear fetch loop. -/
structure LinOut where
  map : List Msg
  raw : List Msg
  hitLimit : Bool
  stopTime : Option Int
deriving Repr, DecidableEq

/-- Embedding of the while-loop of `fetchMessages` (third revision): the raw
log receives each whole batch up front; the loop stops on the limit, on an
empty batch, or when the oldest record of the batch predates the window. -/
def fmLoop (ch : Channel) (s e : Int) (maxN : Nat) :
    Nat → List Msg → List Msg → Option Nat → Option Int → Except MErr LinOut
  | 0, _, _, _, _ => .error .outOfFuel
  | fuel + 1, map, raw, b, stop =>
    if map.length < maxN then
      match ch (.before b 100) with
      | .error m => .error (.thrown m)
      | .ok [] => .ok ⟨map, raw, false, stop⟩
      | .ok (m0 :: bs) =>
        let raw2 := raw ++ (m0 :: bs)
        let st := fmBatch s e maxN (m0 :: bs) map b stop
        if st.hitLimit then .ok ⟨st.map, raw2, true, st.stopTime⟩
        else if ((m0 :: bs).getLast (List.cons_ne_nil m0 bs)).createdTimestamp < s then
          .ok ⟨st.map, raw2, false, st.stopTime⟩
        else fmLoop ch s e maxN fuel st.map raw2 st.beforeId st.stopTime
    else .ok ⟨map, raw, false, stop⟩

/-- Result shape of the linear `fetchMessages` (no api call counter in the
source). -/
structure LinResult where
  sorted : List Msg
  rawLog : List Msg
  hitLimit : Bool
  stopTime : Option Int
deriving Repr, DecidableEq

/-- Embedding of `fetchMessages` (third revision, messageUtils.js lines
1175-1217): linear backward walk from the newest record with a dedup map. -/
def fetchMessages (ch : Channel) (startUTC endUTC : Int) (maxN fuel : Nat) :
    Except MErr LinResult :=
  match fmLoop ch startUTC endUTC maxN fuel [] [] none none with
  | .error err => .error err
  | .ok o => .ok ⟨tsSorted o.map, o.raw, o.hitLimit, o.stopTime⟩

/-- Milliseconds per civil day. -/
def msPerDay : Int := 86400000

/-- ECMAScript leap-year predicate (mathematical mod, as in the spec). -/
def isLeap (y : Int) : Bool := (y % 4 == 0 && y % 100 != 0) || y % 400 == 0

/-- Days in a year. -/
def daysInYear (y : Int) : Nat := if isLeap y then 366 else 365

/-- Month lengths, January first. -/
def monthLengths (leap : Bool) : List Nat :=
  [31, if leap then 29 else 28, 31, 30, 31, 30, 31, 31, 30, 31, 30, 31]

/-- Days before the (0-based) month `m` within a year. -/
def daysBeforeMonth (leap : Bool) (m : Nat) : Nat := ((monthLengths leap).take m).sum

/-- ECMAScript `DayFromYear`: day number (relative to 1970-01-01) of
January 1 of year `y`. -/
def dayFromYear (y : Int) : Int :=
  365 * (y - 1970) + (y - 1969) / 4 - (y - 1901) / 100 + (y - 1601) / 400

/-- Year search, walking up from a base year; fuel-structured so the kernel
can evaluate it (one step consumes at least 365 days, so `d + 1` fuel always
suffices). -/
def findYearF : Nat → Int → Nat → Int × Nat
  | 0, y, d => (y, d)
  | fuel + 1, y, d =>
    if d < daysInYear y then (y, d) else findYearF fuel (y + 1) (d - daysInYear y)

/-- Year search for negative day numbers, walking down from the base year. -/
def findYearNegF : Nat → Int → Int → Int × Nat
  | 0, y, _ => (y, 0)
  | fuel + 1, y, d =>
    let d2 := d + (daysInYear (y - 1) : Int)
    if 0 ≤ d2 then (y - 1, d2.toNat) else findYearNegF fuel (y - 1) d2

/-- Year and day-of-year of a day number (ECMAScript `YearFromTime` /
`DayWithinYear`). -/
def yearDoyOfDay (d : Int) : Int × Nat :=
  if 0 ≤ d then findYearF (d.toNat + 1) 1970 d.toNat
  else findYearNegF d.natAbs 1970 d

/-- Month search within a year from the month-length table. -/
def findMonth : List Nat → Nat → Nat → Nat × Nat
  | [], m, d => (m, d)
  | len :: rest, m, d => if d < len then (m, d) else findMonth rest (m + 1) (d - len)

/-- ECMAScript `MonthFromTime` / `DateFromTime` for a day-of-year. -/
def monthDayOfYear (leap : Bool) (doy : Nat) : Nat × Nat :=
  findMonth (monthLengths leap) 0 doy

/-- Civil (year, 0-based month, 1-based day) of a day number: the triple
returned by `getFullYear` / `getMonth` / `getDate` on the day's date. -/
def dayToCivil (d : Int) : Int × Nat × Nat :=
  let yd := yearDoyOfDay d
  let md := monthDayOfYear (isLeap yd.1) yd.2
  (yd.1, md.1, md.2 + 1)

/-- ECMAScript `MakeDay`: day number of `new Date(y, m, dt, ...)`, with the
month rollover (`y + floor(m / 12)`, `m mod 12`) the JS constructor performs. -/
def makeDay (y m dt : Int) : Int :=
  let ym := y + m / 12
  let mn := (m % 12).toNat
  dayFromYear ym + (daysBeforeMonth (isLeap ym) mn : Int) + (dt - 1)

/-- ECMAScript `MakeTime` (all arguments integral). -/
def makeTime (h mi s ms : Int) : Int := h * 3600000 + mi * 60000 + s * 1000 + ms

/-- Absolute UTC milliseconds of `new Date(y, mo, dt, h, mi, s, ms)`
constructed in a local timezone at fixed offset `tz`. -/
def mkLocalDate (tz y mo dt h mi s ms : Int) : Int :=
  makeDay y mo dt * msPerDay + makeTime h mi s ms - tz

/-- ECMAScript time-value range check (`TimeClip`): `new Date(...)` is an
Invalid Date outside ±8.64e15 milliseconds. -/
def jsMakeLocalDate (tz y mo dt : Int) : Option Int :=
  let v := mkLocalDate tz y mo dt 0 0 0 0
  if v.natAbs ≤ 8640000000000000 then some v else none

/-- Local civil triple of an absolute instant (`getFullYear`, `getMonth`,
`getDate` under a fixed offset `tz`). -/
def localCivil (tz v : Int) : Int × Nat × Nat := dayToCivil ((v + tz) / msPerDay)

/-- ECMAScript `WeekDay` of the local day of an instant (`getDay`). -/
def jsGetDay (tz v : Int) : Int := ((v + tz) / msPerDay + 4) % 7

/-- Linear month index `12 * year + month` of a day number, used to compare
and enumerate (year, month) log-file keys. -/
def monthIdxOfDay (d : Int) : Int :=
  let c := dayToCivil d
  12 * c.1 + (c.2.1 : Int)

/-- Month index of the local calendar month containing an instant. -/
def monthIdxOfMs (tz t : Int) : Int := monthIdxOfDay ((t + tz) / msPerDay)

/-- Embedding of `isEDT` (messageUtils.js lines 133-149): the source
computes the second-Sunday-of-March and first-Sunday-of-November bounds
from local components exactly as written (including its `14 - dayOfWeek`
and `1 + (7 - dayOfWeekNov)` formulas) and compares instants. -/
def isEDT (tz v : Int) : Bool :=
  let year := (localCivil tz v).1
  let dow := (makeDay year 2 1 + 4).emod 7
  let secondSundayMarch := 14 - dow
  let dstStart := mkLocalDate tz year 2 secondSundayMarch 2 0 0 0
  let dowNov := (makeDay year 10 1 + 4).emod 7
  let firstSundayNovember := 1 + (7 - dowNov)
  let dstEnd := mkLocalDate tz year 10 firstSundayNovember 2 0 0 0
  decide (dstStart ≤ v ∧ v < dstEnd)

/-- Embedding of `nyToUTC` (messageUtils.js lines 156-166). -/
def nyToUTC (tz v : Int) : Int := v + (if isEDT tz v then 4 else 5) * 3600000

/-- Embedding of `utcToNY` (messageUtils.js lines 172-188). -/
def utcToNY (tz v : Int) : Int :=
  let estDate := v - 5 * 3600000
  let edtDate := v - 4 * 3600000
  if isEDT tz edtDate then edtDate else estDate

/-- Two-digit zero padding. -/
def pad2 (n : Nat) : String := if n < 10 then "0" ++ toString n else toString n

/-- Four-digit zero padding for years. -/
def pad4 (n : Int) : String :=
  let a := n.natAbs
  let sgn := if n < 0 then "-" else ""
  if a < 10 then sgn ++ "000" ++ toString a
  else if a < 100 then sgn ++ "00" ++ toString a
  else if a < 1000 then sgn ++ "0" ++ toString a
  else sgn ++ toString a

/-- The first sixteen characters of `toISOString()` with `T` replaced by a
space: `YYYY-MM-DD hh:mm` of the UTC components of an instant. -/
def isoLike (v : Int) : String :=
  let c := dayToCivil (v / msPerDay)
  let h := ((v / 3600000) % 24).toNat
  let mi := ((v / 60000) % 60).toNat
  pad4 c.1 ++ "-" ++ pad2 (c.2.1 + 1) ++ "-" ++ pad2 c.2.2 ++ " " ++ pad2 h ++ ":" ++ pad2 mi

/-- Lower-casing, character by character (model of `String.prototype
.toLowerCase` restricted to ASCII, which is all the sources compare). -/
def strToLower (s : String) : String := String.mk (s.data.map Char.toLower)

/-- Split a character list at every occurrence of a separator character
(model of `String.prototype.split` with a single-character separator). -/
def splitOnChar (c : Char) : List Char → List (List Char)
  | [] => [[]]
  | a :: rest =>
    match splitOnChar c rest, decide (a = c) with
    | r, true => [] :: r
    | [], false => [[a]]
    | h :: t, false => (a :: h) :: t

/-- Numeric value of a digit string (the strings fed to it are validated as
all-digits first). -/
def digitsToNat (l : List Char) : Nat :=
  l.foldl (fun n c => n * 10 + (c.toNat - 48)) 0

/-- The opening brace character, kept out of literals. -/
def lbrace : Char := Char.ofNat 123

/-- The closing brace character. -/
def rbrace : Char := Char.ofNat 125

/-- Characters matched by the `[0-9/]` class of the range-token regex. -/
def isDateChar (c : Char) : Bool := c.isDigit || c == '/'

/-- Greedy `\s*`. -/
def wsSkip (l : List Char) : List Char := l.dropWhile (fun c => c.isWhitespace)

/-- The case-insensitive literal `Today` alternative of the token regex;
returns the matched characters (original case) and the remainder. -/
def todayTok : List Char → Option (String × List Char)
  | c1 :: c2 :: c3 :: c4 :: c5 :: rest =>
    if c1.toLower = 't' ∧ c2.toLower = 'o' ∧ c3.toLower = 'd' ∧ c4.toLower = 'a'
        ∧ c5.toLower = 'y' then
      some (String.mk [c1, c2, c3, c4, c5], rest)
    else none
  | _ => none

/-- One `([0-9/]+|Today)` alternative.  The greedy digit run needs no
backtracking: no character of the class can continue the pattern after the
capture, and a digit-initial position can never match `Today`. -/
def dateTok (l : List Char) : Option (String × List Char) :=
  let run := l.takeWhile isDateChar
  if run.isEmpty then todayTok l
  else some (String.mk run, l.dropWhile isDateChar)

/-- Tail of an attempt that omits the optional `- B` group: `\s*` then
the closing brace. -/
def closeOnly (aStr : String) (l2 : List Char) : Option (String × Option String) :=
  match wsSkip l2 with
  | c :: _ => if c = rbrace then some (aStr, none) else none
  | [] => none

/-- One attempt of the range-token regex at a position just after an opening
brace: `\s*(A)(?:\s*-\s*(B))?\s*` and the closing brace, with the
backtracking fallback from the optional group to `closeOnly`. -/
def tryAt (l : List Char) : Option (String × Option String) :=
  match dateTok (wsSkip l) with
  | none => none
  | some (aStr, l2) =>
    match wsSkip l2 with
    | [] => closeOnly aStr l2
    | c :: l4 =>
      if c = '-' then
        match dateTok (wsSkip l4) with
        | none => closeOnly aStr l2
        | some (bStr, l5) =>
          match wsSkip l5 with
          | [] => closeOnly aStr l2
          | c2 :: _ => if c2 = rbrace then some (aStr, some bStr) else closeOnly aStr l2
      else closeOnly aStr l2

/-- Leftmost match of the date-range-token regex over the input: attempts
start at each opening brace from the left, as `String.prototype.match`
does for a pattern anchored on a literal brace. -/
def matchToken : List Char → Option (String × Option String)
  | [] => none
  | c :: rest =>
    if c = lbrace then
      match tryAt rest with
      | some r => some r
      | none => matchToken rest
    else matchToken rest

/-- Model of V8 `new Date(string)` on the digit-and-slash literals the token
regex can produce: a `month/day/year` form with a four-digit year, month
1..12 and day 1..31 parses to local midnight (day overflow rolling over as
ECMAScript `MakeDay` does); every other such literal is an Invalid Date.
Literals with timezone designators cannot occur (the character class has no
letters), so the local-time interpretation always applies. -/
def jsDateParseString (tz : Int) (str : String) : Option Int :=
  match splitOnChar '/' str.data with
  | [a, b, y] =>
    if 1 ≤ a.length ∧ a.length ≤ 2 ∧ a.all Char.isDigit
        ∧ 1 ≤ b.length ∧ b.length ≤ 2 ∧ b.all Char.isDigit
        ∧ y.length = 4 ∧ y.all Char.isDigit then
      let aN := digitsToNat a
      let bN := digitsToNat b
      let yN := digitsToNat y
      if 1 ≤ aN ∧ aN ≤ 12 ∧ 1 ≤ bN ∧ bN ≤ 31 then
        jsMakeLocalDate tz (yN : Int) ((aN : Int) - 1) (bN : Int)
      else none
    else none
  | _ => none

/-- The `^(\d{1,2})\/(\d{1,2})\/(\d{4})$` regex of `parseDate`. -/
def matchMDY (str : String) : Option (Nat × Nat × Nat) :=
  match splitOnChar '/' str.data with
  | [a, b, y] =>
    if 1 ≤ a.length ∧ a.length ≤ 2 ∧ a.all Char.isDigit
        ∧ 1 ≤ b.length ∧ b.length ≤ 2 ∧ b.all Char.isDigit
        ∧ y.length = 4 ∧ y.all Char.isDigit then
      some (digitsToNat a, digitsToNat b, digitsToNat y)
    else none
  | _ => none

/-- Embedding of `parseDate` (third revision, messageUtils.js lines
1063-1108): `today` is the current instant; otherwise the direct `Date`
constructor, then `MM/DD/YYYY` via `new Date(year, month - 1, day)`, then
the `DD/MM/YYYY` fallback guarded by `first > 12`.  Each `isNaN` test is
the ECMAScript time-value range check of `jsMakeLocalDate`. -/
def parseDate (tz now : Int) (dateStr : String) : Option Int :=
  if strToLower dateStr = "today" then some now
  else
    match jsDateParseString tz dateStr with
    | some v => some v
    | none =>
      match matchMDY dateStr with
      | none => none
      | some (a, b, y) =>
        match jsMakeLocalDate tz (y : Int) ((a : Int) - 1) (b : Int) with
        | some v => some v
        | none =>
          if 12 < a then
            match jsMakeLocalDate tz (y : Int) ((b : Int) - 1) (a : Int) with
            | some v => some v
            | none => none
          else none

/-- An absolute UTC window, both bounds inclusive. -/
structure TimeWindow where
  startUTC : Int
  endUTC : Int
deriving Repr, DecidableEq

/-- Embedding of `parseDateRange` (third revision, messageUtils.js lines
1110-1173): extract the token, parse one or two date literals, expand to
local-civil-day boundaries (`today` as the right edge keeps the current
instant), and reject a window whose start exceeds its end. -/
def parseDateRange (tz now : Int) (content : String) : Option TimeWindow :=
  match matchToken content.toList with
  | none => none
  | some (startDateStr, endDateStr?) =>
    match endDateStr? with
    | none =>
      match parseDate tz now startDateStr with
      | none => none
      | some p =>
        let c := localCivil tz p
        let startUTC := mkLocalDate tz c.1 (c.2.1 : Int) (c.2.2 : Int) 0 0 0 0
        let endUTC := mkLocalDate tz c.1 (c.2.1 : Int) (c.2.2 : Int) 23 59 59 999
        if endUTC < startUTC then none else some ⟨startUTC, endUTC⟩
    | some endDateStr =>
      match parseDate tz now startDateStr, parseDate tz now endDateStr with
      | some startDate, some endDate =>
        let cs := localCivil tz startDate
        let leftStart := mkLocalDate tz cs.1 (cs.2.1 : Int) (cs.2.2 : Int) 0 0 0 0
        let rightEnd :=
          if strToLower endDateStr = "today" then endDate
          else
            let ce := localCivil tz endDate
            mkLocalDate tz ce.1 (ce.2.1 : Int) (ce.2.2 : Int) 23 59 59 999
        if rightEnd < leftStart then none else some ⟨leftStart, rightEnd⟩
      | _, _ => none

/-- Embedding of `findAnchorMessage` (messageUtils.js lines 787-795): the
first record of the batch whose timestamp lies inside the window. -/
def findAnchorMessage (batch : List Msg) (startUTC endUTC : Int) : Option Msg :=
  batch.find? (fun m => decide (startUTC ≤ m.createdTimestamp ∧ m.createdTimestamp ≤ endUTC))

/-- The nearest-to-either-edge scan of the widened-window attempts of
`fetchMessagesOptimized` (strict improvement over the running minimum,
initial distance infinite). -/
def nearestScan (batch : List Msg) (s e : Int) : Option Msg :=
  (batch.foldl
    (fun acc m =>
      let dist := min (m.createdTimestamp - s).natAbs (m.createdTimestamp - e).natAbs
      match acc with
      | none => some (m, dist)
      | some (bm, bd) => if dist < bd then some (m, dist) else some (bm, bd))
    none).map Prod.fst

/-- Result shape of `fetchMessagesOptimized`.  The wall-clock `fetchTime`
field is not modelled; `usedFallback` and `hadError` are `false` where the
source leaves them `undefined`, and `apiCalls` is `0` where the source
spreads an object that lacks the field. -/
structure OptResult where
  sorted : List Msg
  rawLog : List Msg
  hitLimit : Bool
  stopTime : Option Int
  apiCalls : Nat
  usedFallback : Bool
  hadError : Bool
deriving Repr, DecidableEq

/-- The widened-window retry loop of `fetchMessagesOptimized` (lines
1005-1034): at most three attempts, each computing the same one-day-widened
window, fetching around its midpoint and expanding from the nearest record;
`none` means all attempts saw an empty batch. -/
def attemptsLoop (ch : Channel) (s e : Int) (maxN fuel : Nat) :
    Nat → Except MErr (Option ExpResult)
  | 0 => .ok none
  | k + 1 =>
    let expandedStart := s - 24 * 60 * 60 * 1000
    let expandedEnd := e + 24 * 60 * 60 * 1000
    match dateToSnowflake (Int.tdiv (expandedStart + expandedEnd) 2) with
    | .error err => .error err
    | .ok expandedSnowflake =>
      match ch (.around expandedSnowflake 100) with
      | .error m => .error (.thrown m)
      | .ok expandedBatch =>
        match nearestScan expandedBatch s e with
        | some nearestMessage =>
          match expandFromAnchor ch (some nearestMessage) s e maxN fuel with
          | .error err => .error err
          | .ok r => .ok (some r)
        | none => attemptsLoop ch s e maxN fuel k

/-- The try-block of `fetchMessagesOptimized` (third revision, lines
967-1046): snowflake for the window midpoint, `around` fetch, expansion from
a found anchor, otherwise the widened-window attempts, otherwise the linear
fallback marked `usedFallback`. -/
def optTry (ch : Channel) (s e : Int) (maxN fuel : Nat) : Except MErr OptResult :=
  match dateToSnowflake (Int.tdiv (s + e) 2) with
  | .error err => .error err
  | .ok targetSnowflake =>
    match ch (.around targetSnowflake 100) with
    | .error m => .error (.thrown m)
    | .ok initialBatch =>
      match findAnchorMessage initialBatch s e with
      | some anchorMessage =>
        match expandFromAnchor ch (some anchorMessage) s e maxN fuel with
        | .error err => .error err
        | .ok r => .ok ⟨r.sorted, r.rawLog, r.hitLimit, r.stopTime, 1 + r.apiCalls, false, false⟩
      | none =>
        match attemptsLoop ch s e maxN fuel 3 with
        | .error err => .error err
        | .ok (some r) => .ok ⟨r.sorted, r.rawLog, r.hitLimit, r.stopTime, r.apiCalls, false, false⟩
        | .ok none =>
          match fetchMessages ch s e maxN fuel with
          | .error err => .error err
          | .ok r => .ok ⟨r.sorted, r.rawLog, r.hitLimit, r.stopTime, 0, true, false⟩

/-- Embedding of `fetchMessagesOptimized` (third revision, messageUtils.js
lines 963-1058): the catch block runs the linear walk over the same window
and marks the result `usedFallback` and `hadError`; only an error of that
fallback, or fuel exhaustion of the model, escapes. -/
def fetchMessagesOptimized (ch : Channel) (s e : Int) (maxN fuel : Nat) :
    Except MErr OptResult :=
  match optTry ch s e maxN fuel with
  | .ok r => .ok r
  | .error .outOfFuel => .error .outOfFuel
  | .error (.thrown _) =>
    match fetchMessages ch s e maxN fuel with
    | .error err => .error err
    | .ok r => .ok ⟨r.sorted, r.rawLog, r.hitLimit, r.stopTime, 0, true, true⟩

/-- An on-disk index line: the normalized JSON projection written by
`IndexService.appendMessage`.  JSON serialization is modelled as the
identity on this record (stringify and parse are mutually inverse on it). -/
structure IndexedEntry where
  id : Nat
  authorId : String
  authorUsername : String
  content : String
  createdTimestamp : Int
deriving Repr, DecidableEq

/-- The projection `appendMessage` writes for a message. -/
def entryOf (m : Msg) : IndexedEntry :=
  ⟨m.id, m.authorId, m.authorUsername, m.content, m.createdTimestamp⟩

/-- A message as delivered to `appendMessage`, carrying its channel id. -/
structure ChannelMsg where
  channelId : String
  msg : Msg
deriving Repr, DecidableEq

/-- The filesystem of monthly log files: lines per (channel id, linear
month index).  The `(year, month)` path pair of the source corresponds
bijectively to the index `12 * year + month`. -/
def IndexFS : Type := String → Int → List IndexedEntry

/-- The empty filesystem. -/
def emptyFS : IndexFS := fun _ _ => []

/-- Embedding of `IndexService.appendMessage` (IndexService.js lines
17-41): append one line to the month file of the message's local
(year, month), creating the file as needed; a no-op when persistence is
disabled. -/
def appendMessage (tz : Int) (enabled : Bool) (fs : IndexFS) (m : ChannelMsg) : IndexFS :=
  if enabled = false then fs
  else fun cid idx =>
    if cid = m.channelId ∧ idx = monthIdxOfMs tz m.msg.createdTimestamp then
      fs cid idx ++ [entryOf m.msg]
    else fs cid idx

/-- A sequence of `appendMessage` calls against an initial filesystem. -/
def runAppends (tz : Int) (enabled : Bool) (msgs : List ChannelMsg) (fs : IndexFS) : IndexFS :=
  msgs.foldl (fun acc m => appendMessage tz enabled acc m) fs

/-- The ascending-timestamp sort of index entries. -/
def tsSortedE (l : List IndexedEntry) : List IndexedEntry :=
  List.insertionSort (fun a b => a.createdTimestamp ≤ b.createdTimestamp) l

/-- Embedding of `IndexService.getMessagesByDateRange` (IndexService.js
lines 46-86): enumerate the month files from the window start's local month
through the window end's local month (the first-of-month cursor comparison
of the source is the comparison of linear month indexes), keep the lines
whose timestamp lies in the window, and sort ascending. -/
def getMessagesByDateRange (tz : Int) (enabled : Bool) (fs : IndexFS) (channelId : String)
    (startUTC endUTC : Int) : List IndexedEntry :=
  if enabled = false then []
  else
    let sIdx := monthIdxOfMs tz startUTC
    let eIdx := monthIdxOfMs tz endUTC
    let lines := (List.range (eIdx - sIdx + 1).toNat).flatMap (fun k => fs channelId (sIdx + k))
    let results := lines.filter
      (fun o => decide (startUTC ≤ o.createdTimestamp ∧ o.createdTimestamp ≤ endUTC))
    tsSortedE results

/-- One `input_text` content item of an OpenAI request message. -/
structure OAIContent where
  type : String
  text : String
deriving Repr, DecidableEq

/-- One message of the OpenAI request body. -/
structure OAIMessage where
  role : String
  content : List OAIContent
deriving Repr, DecidableEq

/-- The system message `buildOpenAIInput` prepends. -/
def systemMessage (userPrompt : String) : OAIMessage :=
  ⟨"system", [⟨"input_text", userPrompt⟩]⟩

/-- The rendered text of one transcript line of `buildOpenAIInput` (second
revision): username with the JS falsy fallbacks, timestamp converted to
America/New_York and formatted as the first sixteen ISO characters. -/
def renderText (tz : Int) (userPrompt : String) (botId : Nat) (m : Msg) : String :=
  let username :=
    if m.authorUsername ≠ "" then m.authorUsername
    else if m.authorId ≠ "" then m.authorId
    else "unknown"
  let dateStr := isoLike (utcToNY tz m.createdTimestamp)
  if m.id = botId then userPrompt
  else "[" ++ username ++ " @ " ++ dateStr ++ "] " ++ m.content

/-- Embedding of `buildOpenAIInput` (second revision, messageUtils.js lines
684-725) with the module-level `processedMessageIds` set passed and returned
explicitly: filter out already-processed ids, record the new ids, and build
the system message followed by one user message per new record. -/
def buildOpenAIInput (tz : Int) (processedMessageIds : List Nat) (sorted : List Msg)
    (userPrompt : String) (botId : Nat) : List OAIMessage × List Nat :=
  let newMessages := sorted.filter (fun m => !(processedMessageIds.contains m.id))
  let processed2 :=
    newMessages.foldl (fun s m => if s.contains m.id then s else s ++ [m.id])
      processedMessageIds
  let input := newMessages.map
    (fun m => (⟨"user", [⟨"input_text", renderText tz userPrompt botId m⟩]⟩ : OAIMessage))
  (systemMessage userPrompt :: input, processed2)

/-- Every character produced by the decimal digit writer is a digit (or came
from the accumulator). -/
lemma toDigitsCore_digits (fuel : Nat) :
    ∀ (n : Nat) (ds : List Char), ∀ c ∈ Nat.toDigitsCore 10 fuel n ds,
      c ∈ ds ∨ c.isDigit = true := by
  induction fuel with
  | zero => intro n ds c hc; simp [Nat.toDigitsCore] at hc; exact Or.inl hc
  | succ f ih =>
    intro n ds c hc
    have hd : ∀ m, m < 10 → (Nat.digitChar m).isDigit = true := by decide
    simp only [Nat.toDigitsCore] at hc
    by_cases h : n / 10 = 0
    · simp only [h, if_pos rfl] at hc
      rcases List.mem_cons.mp hc with h1 | h1
      · exact Or.inr (h1 ▸ hd _ (Nat.mod_lt _ (by decide)))
      · exact Or.inl h1
    · simp only [if_neg h] at hc
      rcases ih _ _ c hc with h1 | h1
      · rcases List.mem_cons.mp h1 with h2 | h2
        · exact Or.inr (h2 ▸ hd _ (Nat.mod_lt _ (by decide)))
        · exact Or.inl h2
      · exact Or.inr h1

/-- The digit writer never returns an empty list when given fuel or a
nonempty accumulator. -/
lemma toDigitsCore_ne_nil (fuel : Nat) :
    ∀ (n : Nat) (ds : List Char), fuel ≠ 0 ∨ ds ≠ [] →
      Nat.toDigitsCore 10 fuel n ds ≠ [] := by
  induction fuel with
  | zero =>
    intro n ds h
    simp [Nat.toDigitsCore]
    tauto
  | succ f ih =>
    intro n ds _
    simp only [Nat.toDigitsCore]
    by_cases h : n / 10 = 0
    · simp [h]
    · simp only [if_neg h]
      exact ih _ _ (Or.inr (by simp))

/-- Decimal renderings of naturals never start with a minus sign. -/
lemma natRepr_no_dash (n : Nat) : startsWithDash (Nat.repr n) = false := by
  have h1 : (Nat.repr n).data = Nat.toDigits 10 n := rfl
  unfold startsWithDash
  rw [h1]
  have hne : Nat.toDigits 10 n ≠ [] := toDigitsCore_ne_nil (n + 1) n [] (Or.inl (by simp))
  obtain ⟨c, cs, hcs⟩ := List.exists_cons_of_ne_nil hne
  have hcmem : c ∈ Nat.toDigits 10 n := by rw [hcs]; exact List.mem_cons_self _ _
  have hdig := toDigitsCore_digits (n + 1) n [] c hcmem
  simp at hdig
  rw [hcs]
  simp only [List.head?_cons]
  have hne2 : c ≠ '-' := by
    intro hcon
    rw [hcon] at hdig
    simp [Char.isDigit] at hdig
  simp [hne2]

/-- Digit counters are at least one. -/
lemma numDigitsF_pos (fuel n : Nat) : 1 ≤ numDigitsF fuel n := by
  cases fuel with
  | zero => simp [numDigitsF]
  | succ f =>
    simp only [numDigitsF]
    split <;> omega

/-- Characterization of the fuel-structural digit count. -/
lemma numDigitsF_spec : ∀ (fuel n : Nat), 1 ≤ n → n < 10 ^ fuel →
    10 ^ (numDigitsF fuel n - 1) ≤ n ∧ n < 10 ^ numDigitsF fuel n := by
  intro fuel
  induction fuel with
  | zero =>
    intro n h1 h2
    simp at h2
    omega
  | succ f ih =>
    intro n h1 h2
    simp only [numDigitsF]
    by_cases h : n < 10
    · rw [if_pos h]
      simp
      omega
    · rw [if_neg h]
      have h10 : 1 ≤ n / 10 := by omega
      have hlt : n / 10 < 10 ^ f := by
        rw [pow_succ] at h2
        omega
      obtain ⟨hl, hu⟩ := ih (n / 10) h10 hlt
      have hLpos := numDigitsF_pos f (n / 10)
      have hpows : (10 : Nat) ^ numDigitsF f (n / 10)
          = 10 ^ (numDigitsF f (n / 10) - 1) * 10 := by
        conv_lhs => rw [show numDigitsF f (n / 10) = (numDigitsF f (n / 10) - 1) + 1 by omega]
        rw [pow_succ]
      constructor
      · rw [Nat.add_sub_cancel, hpows]
        omega
      · rw [pow_succ]
        omega

/-- Characterization of the fuel-structural binary logarithm. -/
lemma log2F_spec : ∀ (fuel n : Nat), 1 ≤ n → n < 2 ^ fuel →
    2 ^ log2F fuel n ≤ n ∧ n < 2 ^ (log2F fuel n + 1) := by
  intro fuel
  induction fuel with
  | zero =>
    intro n h1 h2
    simp at h2
    omega
  | succ f ih =>
    intro n h1 h2
    simp only [log2F]
    by_cases h : n ≤ 1
    · rw [if_pos h]
      simp only [pow_zero, zero_add, pow_one]
      omega
    · rw [if_neg h]
      have h1' : 1 ≤ n / 2 := by omega
      have h2' : n / 2 < 2 ^ f := by
        rw [pow_succ] at h2
        omega
      obtain ⟨hl, hu⟩ := ih (n / 2) h1' h2'
      rw [pow_succ] at hu
      constructor
      · rw [pow_succ]
        omega
      · rw [pow_succ, pow_succ]
        omega

/-- Integers up to 2^53, and even integers up to 2^54, are fixed points of
the double rounding. -/
lemma roundND_fix (d : Nat) (h : d ≤ 2 ^ 53 ∨ (d % 2 = 0 ∧ d ≤ 2 ^ 54)) :
    roundNearestDouble d = d := by
  by_cases h1 : d ≤ 2 ^ 53
  · simp only [roundNearestDouble, if_pos h1]
  · by_cases h2 : d = 2 ^ 54
    · rw [h2]
      decide
    · have heven : d % 2 = 0 := by
        rcases h with h3 | h3
        · omega
        · exact h3.1
      have hle54 : d ≤ 2 ^ 54 := by
        rcases h with h3 | h3
        · have : (2 : Nat) ^ 53 ≤ 2 ^ 54 := Nat.pow_le_pow_right (by omega) (by omega)
          omega
        · exact h3.2
      have hlt54 : d < 2 ^ 54 := by omega
      have hbig : d < 2 ^ 1100 := by
        have h1100 : (2 : Nat) ^ 54 ≤ 2 ^ 1100 := Nat.pow_le_pow_right (by omega) (by omega)
        exact lt_of_lt_of_le hlt54 h1100
      obtain ⟨hl, hu⟩ := log2F_spec 1100 d (by omega) hbig
      have he : log2F 1100 d = 53 := by
        rcases Nat.lt_trichotomy (log2F 1100 d) 53 with h4 | h4 | h4
        · have : (2 : Nat) ^ (log2F 1100 d + 1) ≤ 2 ^ 53 :=
            Nat.pow_le_pow_right (by omega) (by omega)
          omega
        · exact h4
        · have : (2 : Nat) ^ 54 ≤ 2 ^ log2F 1100 d :=
            Nat.pow_le_pow_right (by omega) h4
          omega
      simp only [roundNearestDouble, he]
      rw [if_neg h1]
      have hulp : (2 : Nat) ^ (53 - 52) = 2 := by norm_num
      rw [hulp]
      rw [if_neg (by omega)]
      omega

/-- For an exactly representable value up to 2^53 every candidate the digit
search tries converts back to itself, so the search always returns an exact
decomposition of the value. -/
lemma ecmaFind_exact (v : Nat) (h1 : 1 ≤ v) (h53 : v ≤ 2 ^ 53) :
    ∀ (fuel k : Nat), 1 ≤ k →
      (ecmaFind v fuel k).1 * 10 ^ (ecmaFind v fuel k).2 = v := by
  have hv400 : v < 10 ^ 400 := by
    have : (2 : Nat) ^ 53 < 10 ^ 400 := by norm_num
    omega
  have hnd : 10 ^ (numDigitsF 400 v - 1) ≤ v ∧ v < 10 ^ numDigitsF 400 v :=
    numDigitsF_spec 400 v h1 hv400
  have hndv : numDigits v = numDigitsF 400 v := rfl
  intro fuel
  induction fuel with
  | zero =>
    intro k _
    simp [ecmaFind]
  | succ f ih =>
    intro k hk
    simp only [ecmaFind]
    generalize hS : (if 10 ^ (numDigits v - k) < 2 * (v % 10 ^ (numDigits v - k))
        ∨ (2 * (v % 10 ^ (numDigits v - k)) = 10 ^ (numDigits v - k)
          ∧ v / 10 ^ (numDigits v - k) % 2 = 1)
      then v / 10 ^ (numDigits v - k) + 1 else v / 10 ^ (numDigits v - k)) = S
    by_cases hrt : roundNearestDouble (S * 10 ^ (numDigits v - k)) = v
    · rw [if_pos hrt]
      have hple10 : (10 : Nat) ^ (numDigits v - k) ≤ v := by
        calc (10 : Nat) ^ (numDigits v - k) ≤ 10 ^ (numDigitsF 400 v - 1) :=
              Nat.pow_le_pow_right (by omega) (by omega)
          _ ≤ v := hnd.1
      have hSle : S ≤ v / 10 ^ (numDigits v - k) + 1 := by
        rw [← hS]
        split <;> omega
      have hdml := Nat.div_mul_le_self v (10 ^ (numDigits v - k))
      have hcle : S * 10 ^ (numDigits v - k) ≤ v + 10 ^ (numDigits v - k) := by
        calc S * 10 ^ (numDigits v - k)
            ≤ (v / 10 ^ (numDigits v - k) + 1) * 10 ^ (numDigits v - k) :=
              Nat.mul_le_mul_right _ hSle
          _ = v / 10 ^ (numDigits v - k) * 10 ^ (numDigits v - k)
              + 10 ^ (numDigits v - k) := by ring
          _ ≤ v + 10 ^ (numDigits v - k) := by omega
      have h54 : (2 : Nat) ^ 54 = 2 ^ 53 * 2 := by norm_num
      have hfix : roundNearestDouble (S * 10 ^ (numDigits v - k))
          = S * 10 ^ (numDigits v - k) := by
        by_cases hc : S * 10 ^ (numDigits v - k) ≤ 2 ^ 53
        · exact roundND_fix _ (Or.inl hc)
        · refine roundND_fix _ (Or.inr ⟨?_, by omega⟩)
          have hp1 : 1 ≤ numDigits v - k := by
            by_contra hcon
            have hp0 : numDigits v - k = 0 := by omega
            have hSv : S = v := by
              rw [← hS]
              simp [hp0, Nat.mod_one]
            rw [hSv, hp0, pow_zero, Nat.mul_one] at hc
            exact hc h53
          have h10e : (10 : Nat) ^ (numDigits v - k) % 2 = 0 := by
            rw [show numDigits v - k = (numDigits v - k - 1) + 1 by omega, pow_succ,
              Nat.mul_mod]
            simp
          rw [Nat.mul_mod, h10e]
          simp
      rw [hfix] at hrt
      exact hrt
    · rw [if_neg hrt]
      exact ih (k + 1) (by omega)

/-- ECMA-262 rendering coincides with the exact decimal digits for values
up to 2^53. -/
lemma jsDoubleToString_exact (v : Nat) (h53 : v ≤ 2 ^ 53) :
    jsDoubleToString v = Nat.repr v := by
  by_cases h0 : v = 0
  · subst h0
    rfl
  · have h1 : 1 ≤ v := by omega
    have hfind := ecmaFind_exact v h1 h53 (numDigits v) 1 (le_refl 1)
    have hv400 : v < 10 ^ 400 := by
      have : (2 : Nat) ^ 53 < 10 ^ 400 := by norm_num
      omega
    have hnd : 10 ^ (numDigitsF 400 v - 1) ≤ v ∧ v < 10 ^ numDigitsF 400 v :=
      numDigitsF_spec 400 v h1 hv400
    have hle : numDigits v ≤ 21 := by
      show numDigitsF 400 v ≤ 21
      by_contra hcon
      have h21 : (10 : Nat) ^ 21 ≤ 10 ^ (numDigitsF 400 v - 1) :=
        Nat.pow_le_pow_right (by omega) (by omega)
      have hbig : (2 : Nat) ^ 53 < 10 ^ 21 := by norm_num
      have := hnd.1
      omega
    simp only [jsDoubleToString, if_neg h0]
    rw [hfind, if_pos hle]

/-- C7 — amended: for a UTC millisecond timestamp at or after the store
epoch 1420070400000 and within 2^31 ms of it (so the shifted product stays
within 2^53, where the ECMA-262 shortest round-trip rendering is exact),
`dateToSnowflake` returns the decimal string of exactly the epoch-relative
timestamp shifted left by 22 bits, whose low 22 bits are all zero; for a
timestamp strictly before the epoch it fails with an error. -/
theorem C7_dateToSnowflake_encoding (t : Int) :
    (DISCORD_EPOCH ≤ t → t ≤ DISCORD_EPOCH + 2147483648 →
      dateToSnowflake t = .ok (Nat.repr ((t - 1420070400000) * 2 ^ 22).toNat)
        ∧ ((t - 1420070400000) * 2 ^ 22) % 2 ^ 22 = 0)
    ∧ (t < DISCORD_EPOCH → ∃ m, dateToSnowflake t = .error (.thrown m)) := by
  constructor
  · intro h hub
    have hepoch : DISCORD_EPOCH = (1420070400000 : Int) := rfl
    have hpow : (2 : Int) ^ 22 = 4194304 := by norm_num
    have hm : (0 : Int) ≤ t - 1420070400000 := by
      rw [hepoch] at h
      omega
    have hnn : (0 : Int) ≤ (t - 1420070400000) * 4194304 :=
      mul_nonneg hm (by norm_num)
    have hv53 : ((t - 1420070400000) * 4194304).toNat ≤ 2 ^ 53 := by
      have hub2 : t - 1420070400000 ≤ 2147483648 := by
        rw [hepoch] at hub
        omega
      have hmul : (t - 1420070400000) * 4194304 ≤ 2147483648 * 4194304 :=
        mul_le_mul_of_nonneg_right hub2 (by norm_num)
      rw [Int.toNat_le]
      have hcast : ((2 ^ 53 : Nat) : Int) = 2147483648 * 4194304 := by norm_num
      omega
    have hjs : jsNumToString ((t - DISCORD_EPOCH) * 4194304)
        = Nat.repr ((t - 1420070400000) * 2 ^ 22).toNat := by
      rw [hepoch, hpow] at *
      simp only [jsNumToString, if_neg (not_lt.mpr hnn)]
      exact jsDoubleToString_exact _ hv53
    constructor
    · unfold dateToSnowflake
      rw [if_neg (not_lt.mpr h), hjs]
      simp only [natRepr_no_dash, Bool.false_eq_true, if_false]
    · rw [hpow]
      exact Int.mul_emod_left _ _
  · intro h
    refine ⟨"date before Discord epoch", ?_⟩
    unfold dateToSnowflake
    rw [if_pos h]

/-- Witness for C7 at concrete inputs on both sides of the epoch. -/
theorem C7_dateToSnowflake_encoding_witness :
    (DISCORD_EPOCH ≤ (1420070400002 : Int)
      ∧ (1420070400002 : Int) ≤ DISCORD_EPOCH + 2147483648)
    ∧ dateToSnowflake 1420070400002
        = .ok (Nat.repr (((1420070400002 : Int) - 1420070400000) * 2 ^ 22).toNat)
    ∧ (∃ m, dateToSnowflake 1420070399999 = .error (.thrown m)) :=
  ⟨⟨by decide, by decide⟩,
   ((C7_dateToSnowflake_encoding 1420070400002).1 (by decide) (by decide)).1,
   (C7_dateToSnowflake_encoding 1420070399999).2 (by decide)⟩

/-- At the timestamp 2^38 ms past the epoch the shifted product is 2^60,
whose ECMA-262 shortest round-trip rendering prints 1152921504606847000
rather than the exact decimal digits 1152921504606846976, so beyond 2^53
`dateToSnowflake` does not return the exact decimal string. -/
theorem C7_shortest_roundtrip_counterexample :
    dateToSnowflake 1694948306944 = .ok "1152921504606847000"
    ∧ ((1694948306944 : Int) - 1420070400000) * 2 ^ 22 = 1152921504606846976
    ∧ Nat.repr 1152921504606846976 ≠ "1152921504606847000" :=
  ⟨rfl, by norm_num, by decide⟩

/-- The dedup-map invariant: pairwise distinct record ids and every entry
inside the window. -/
def MapInv (s e : Int) (map : List Msg) : Prop :=
  map.Pairwise (fun a b => a.id ≠ b.id)
    ∧ ∀ m ∈ map, s ≤ m.createdTimestamp ∧ m.createdTimestamp ≤ e

/-- Absence from the dedup map, element-wise. -/
lemma hasId_eq_false_iff (map : List Msg) (i : Nat) :
    hasId map i = false ↔ ∀ x ∈ map, x.id ≠ i := by
  unfold hasId
  simp [List.any_eq_false]

/-- Inserting a fresh in-window record preserves the map invariant. -/
lemma MapInv.insert {s e : Int} {map : List Msg} {msg : Msg} (h : MapInv s e map)
    (hin : s ≤ msg.createdTimestamp ∧ msg.createdTimestamp ≤ e)
    (hno : hasId map msg.id = false) : MapInv s e (map ++ [msg]) := by
  obtain ⟨hp, hw⟩ := h
  refine ⟨?_, ?_⟩
  · rw [List.pairwise_append]
    refine ⟨hp, List.pairwise_singleton _ _, ?_⟩
    intro a ha b hb
    rw [List.mem_singleton] at hb
    intro hcon
    exact (hasId_eq_false_iff map msg.id).mp hno a ha (hb ▸ hcon)
  · intro m hm
    rcases List.mem_append.mp hm with h1 | h1
    · exact hw m h1
    · rw [List.mem_singleton] at h1; subst h1; exact hin

/-- The backward batch walk preserves the map invariant. -/
lemma backBatch_inv (s e : Int) (maxN : Nat) :
    ∀ (batch map raw : List Msg) (b : Nat) (stop : Option Int), MapInv s e map →
      MapInv s e (backBatch s e maxN batch map raw b stop).map := by
  intro batch
  induction batch with
  | nil => intro map raw b stop hinv; simpa [backBatch] using hinv
  | cons msg rest ih =>
    intro map raw b stop hinv
    simp only [backBatch]
    by_cases h1 : msg.createdTimestamp < s
    · simpa [if_pos h1] using hinv
    · simp only [if_neg h1]
      by_cases h2 : s ≤ msg.createdTimestamp ∧ msg.createdTimestamp ≤ e
          ∧ hasId map msg.id = false
      · simp only [if_pos h2]
        have hins : MapInv s e (map ++ [msg]) :=
          hinv.insert ⟨h2.1, h2.2.1⟩ h2.2.2
        by_cases h3 : maxN ≤ map.length + 1
        · simpa [if_pos h3] using hins
        · simpa [if_neg h3] using ih (map ++ [msg]) (raw ++ [msg]) msg.id stop hins
      · simpa [if_neg h2] using ih _ _ _ _ hinv

/-- The backward while-loop preserves the map invariant. -/
lemma backLoop_inv (ch : Channel) (s e : Int) (maxN : Nat) :
    ∀ (fuel : Nat) (map raw : List Msg) (b : Nat) (stop : Option Int) (calls : Nat)
      (out : LoopOut), MapInv s e map →
      backLoop ch s e maxN fuel map raw b stop calls = .ok out → MapInv s e out.map := by
  intro fuel
  induction fuel with
  | zero => intro map raw b stop calls out _ h; simp [backLoop] at h
  | succ f ih =>
    intro map raw b stop calls out hinv h
    simp only [backLoop] at h
    by_cases hlen : map.length < maxN
    · rw [if_pos hlen] at h
      cases hch : ch (.before (some b) 100) with
      | error m => rw [hch] at h; simp at h
      | ok batch =>
        rw [hch] at h
        cases batch with
        | nil =>
          simp at h
          cases h
          exact hinv
        | cons m0 bs =>
          simp only at h
          have hstep := backBatch_inv s e maxN (m0 :: bs) map raw b stop hinv
          by_cases hh : (backBatch s e maxN (m0 :: bs) map raw b stop).hitLimit = true
          · rw [if_pos hh] at h
            cases h
            exact hstep
          · rw [if_neg hh] at h
            by_cases hr : (backBatch s e maxN (m0 :: bs) map raw b stop).reachedStart = true
            · rw [if_pos hr] at h
              cases h
              exact hstep
            · rw [if_neg hr] at h
              exact ih _ _ _ _ _ _ hstep h
    · rw [if_neg hlen] at h
      cases h
      exact hinv

/-- The forward batch walk preserves the map invariant. -/
lemma fwdBatch_inv (s e : Int) (maxN : Nat) :
    ∀ (batch map raw : List Msg) (stop : Option Int) (re ab : Bool), MapInv s e map →
      MapInv s e (fwdBatch s e maxN batch map raw stop re ab).map := by
  intro batch
  induction batch with
  | nil => intro map raw stop re ab hinv; simpa [fwdBatch] using hinv
  | cons msg rest ih =>
    intro map raw stop re ab hinv
    simp only [fwdBatch]
    by_cases h1 : s ≤ msg.createdTimestamp ∧ msg.createdTimestamp ≤ e
    · simp only [if_pos h1]
      by_cases h2 : hasId map msg.id = false
      · simp only [if_pos h2]
        have hins : MapInv s e (map ++ [msg]) := hinv.insert h1 h2
        by_cases h3 : maxN ≤ map.length + 1
        · simpa [if_pos h3] using hins
        · simpa [if_neg h3] using ih (map ++ [msg]) (raw ++ [msg]) stop re false hins
      · simpa [if_neg h2] using ih _ _ _ _ _ hinv
    · simp only [if_neg h1]
      by_cases h4 : e < msg.createdTimestamp
      · simp only [if_pos h4]
        by_cases h5 : re = true
        · simpa [if_pos h5] using ih _ _ _ _ _ hinv
        · simpa [if_neg h5] using ih _ _ _ _ _ hinv
      · simpa [if_neg h4] using ih _ _ _ _ _ hinv

/-- The forward while-loop preserves the map invariant. -/
lemma fwdLoop_inv (ch : Channel) (s e : Int) (maxN : Nat) :
    ∀ (fuel : Nat) (map raw : List Msg) (a : Nat) (stop : Option Int) (hit re : Bool)
      (calls : Nat) (out : LoopOut), MapInv s e map →
      fwdLoop ch s e maxN fuel map raw a stop hit re calls = .ok out → MapInv s e out.map := by
  intro fuel
  induction fuel with
  | zero => intro map raw a stop hit re calls out _ h; simp [fwdLoop] at h
  | succ f ih =>
    intro map raw a stop hit re calls out hinv h
    simp only [fwdLoop] at h
    by_cases hc : map.length < maxN ∧ hit = false
    · rw [if_pos hc] at h
      cases hch : ch (.after a 100) with
      | error m => rw [hch] at h; simp at h
      | ok batch =>
        rw [hch] at h
        cases batch with
        | nil =>
          simp at h
          cases h
          exact hinv
        | cons m0 bs =>
          simp only at h
          have hstep := fwdBatch_inv s e maxN (m0 :: bs) map raw stop re true hinv
          by_cases hh : (fwdBatch s e maxN (m0 :: bs) map raw stop re true).hitLimit = true
          · rw [if_pos hh] at h
            cases h
            exact hstep
          · rw [if_neg hh] at h
            by_cases hab : (fwdBatch s e maxN (m0 :: bs) map raw stop re true).allBeyond = true
                ∧ (fwdBatch s e maxN (m0 :: bs) map raw stop re true).reachedEnd = true
            · rw [if_pos hab] at h
              cases h
              exact hstep
            · rw [if_neg hab] at h
              exact ih _ _ _ _ _ _ _ _ hstep h
    · rw [if_neg hc] at h
      cases h
      exact hinv

/-- Distinctness of ids is a symmetric relation. -/
lemma idNe_symm : Symmetric (fun a b : Msg => a.id ≠ b.id) :=
  fun _ _ h hc => h hc.symm

/-- C1: for every channel behaviour and window, a successful
`expandFromAnchor` returns a `sorted` sequence with pairwise-distinct record
ids, every record inside the inclusive window, ordered ascending by
`createdTimestamp`; an anchor whose timestamp lies outside the window never
appears in the result. -/
theorem C1_expand_unique_in_window_sorted (ch : Channel) (anchor : Msg) (s e : Int)
    (maxN fuel : Nat) (r : ExpResult)
    (h : expandFromAnchor ch (some anchor) s e maxN fuel = .ok r) :
    r.sorted.Pairwise (fun a b => a.id ≠ b.id)
    ∧ (∀ m ∈ r.sorted, s ≤ m.createdTimestamp ∧ m.createdTimestamp ≤ e)
    ∧ r.sorted.Sorted tsLE
    ∧ ((anchor.createdTimestamp < s ∨ e < anchor.createdTimestamp) → anchor ∉ r.sorted) := by
  simp only [expandFromAnchor] at h
  have hm0 : MapInv s e
      (if s ≤ anchor.createdTimestamp ∧ anchor.createdTimestamp ≤ e then [anchor] else []) := by
    split
    · refine ⟨List.pairwise_singleton _ _, ?_⟩
      intro m hm
      rw [List.mem_singleton] at hm
      subst hm
      assumption
    · exact ⟨List.Pairwise.nil, by intro m hm; simp at hm⟩
  cases hb : backLoop ch s e maxN fuel
      (if s ≤ anchor.createdTimestamp ∧ anchor.createdTimestamp ≤ e then [anchor] else [])
      [anchor] anchor.id none 0 with
  | error err => rw [hb] at h; exact absurd h (by simp)
  | ok back =>
    rw [hb] at h
    dsimp only at h
    have hback : MapInv s e back.map := backLoop_inv ch s e maxN fuel _ _ _ _ _ _ hm0 hb
    cases hf : fwdLoop ch s e maxN fuel back.map back.raw anchor.id back.stopTime
        back.hitLimit false back.apiCalls with
    | error err => rw [hf] at h; exact absurd h (by simp)
    | ok fwd =>
      rw [hf] at h
      dsimp only at h
      have hfwd : MapInv s e fwd.map := fwdLoop_inv ch s e maxN fuel _ _ _ _ _ _ _ _ hback hf
      have hr : (⟨tsSorted fwd.map, fwd.raw, fwd.hitLimit, fwd.stopTime, fwd.apiCalls⟩ :
          ExpResult) = r := by
        injection h
      subst hr
      have hperm : tsSorted fwd.map |>.Perm fwd.map := List.perm_insertionSort tsLE fwd.map
      have hmem : ∀ m ∈ tsSorted fwd.map, s ≤ m.createdTimestamp ∧ m.createdTimestamp ≤ e :=
        fun m hm => hfwd.2 m (hperm.mem_iff.mp hm)
      refine ⟨?_, hmem, ?_, ?_⟩
      · exact (List.Perm.pairwise_iff (fun h => idNe_symm h) hperm).mpr hfwd.1
      · exact List.sorted_insertionSort tsLE fwd.map
      · intro hout hmem2
        have := hmem anchor hmem2
        rcases hout with h1 | h1 <;> omega

/-- Concrete two-record store for the C1 witness. -/
def wStore1 : List Msg := [⟨20, 200, "u2", "b", "y"⟩, ⟨10, 100, "u1", "a", "x"⟩]

/-- The anchor of the C1 witness (the older record, inside the window). -/
def wAnchor1 : Msg := ⟨10, 100, "u1", "a", "x"⟩

/-- The expansion result of the C1 witness. -/
def wRes1 : ExpResult :=
  ⟨[⟨10, 100, "u1", "a", "x"⟩, ⟨20, 200, "u2", "b", "y"⟩],
   [⟨10, 100, "u1", "a", "x"⟩, ⟨20, 200, "u2", "b", "y"⟩], false, none, 3⟩

/-- Witness for C1: a concrete two-record store, anchor in window. -/
theorem C1_expand_unique_in_window_sorted_witness :
    expandFromAnchor (storeChannel wStore1) (some wAnchor1) 50 250 1000 5 = .ok wRes1
    ∧ (wRes1.sorted.Pairwise (fun a b => a.id ≠ b.id)
      ∧ (∀ m ∈ wRes1.sorted, 50 ≤ m.createdTimestamp ∧ m.createdTimestamp ≤ 250)
      ∧ wRes1.sorted.Sorted tsLE
      ∧ ((wAnchor1.createdTimestamp < 50 ∨ 250 < wAnchor1.createdTimestamp)
          → wAnchor1 ∉ wRes1.sorted)) :=
  ⟨rfl, C1_expand_unique_in_window_sorted (storeChannel wStore1) wAnchor1 50 250 1000 5 wRes1 rfl⟩

/-- When the backward batch walk finishes without breaking, the cursor has
advanced to the id of some batch record (or the batch was empty and the
cursor is unchanged). -/
lemma backBatch_beforeId (s e : Int) (maxN : Nat) :
    ∀ (batch map raw : List Msg) (b : Nat) (stop : Option Int),
      (backBatch s e maxN batch map raw b stop).hitLimit = false →
      (backBatch s e maxN batch map raw b stop).reachedStart = false →
      (∃ msg ∈ batch, (backBatch s e maxN batch map raw b stop).beforeId = msg.id)
        ∨ (batch = [] ∧ (backBatch s e maxN batch map raw b stop).beforeId = b) := by
  intro batch
  induction batch with
  | nil => intro map raw b stop _ _; right; exact ⟨rfl, by simp [backBatch]⟩
  | cons msg rest ih =>
    intro map raw b stop hhit hstart
    simp only [backBatch] at hhit hstart ⊢
    by_cases h1 : msg.createdTimestamp < s
    · rw [if_pos h1] at hstart; simp at hstart
    · rw [if_neg h1] at hhit hstart ⊢
      by_cases h2 : s ≤ msg.createdTimestamp ∧ msg.createdTimestamp ≤ e
          ∧ hasId map msg.id = false
      · rw [if_pos h2] at hhit hstart ⊢
        by_cases h3 : maxN ≤ (map ++ [msg]).length
        · rw [if_pos h3] at hhit; simp at hhit
        · rw [if_neg h3] at hhit hstart ⊢
          rcases ih (map ++ [msg]) (raw ++ [msg]) msg.id stop hhit hstart with
            ⟨m, hm, h4⟩ | ⟨_, h4⟩
          · exact Or.inl ⟨m, List.mem_cons_of_mem _ hm, h4⟩
          · exact Or.inl ⟨msg, List.mem_cons_self _ _, h4⟩
      · rw [if_neg h2] at hhit hstart ⊢
        rcases ih map (raw ++ [msg]) msg.id stop hhit hstart with ⟨m, hm, h4⟩ | ⟨_, h4⟩
        · exact Or.inl ⟨m, List.mem_cons_of_mem _ hm, h4⟩
        · exact Or.inl ⟨msg, List.mem_cons_self _ _, h4⟩

/-- Cutting the backward filter at a strictly smaller cursor that is the id
of a store record strictly shrinks the filtered store. -/
lemma filter_lt_strict (store : List Msg) (b bp : Nat) (hb : bp < b) (msg : Msg)
    (hmem : msg ∈ store) (hid : msg.id = bp) :
    (store.filter (fun m => m.id < bp)).length < (store.filter (fun m => m.id < b)).length := by
  have hsub : store.filter (fun m => m.id < bp)
      = (store.filter (fun m => m.id < b)).filter (fun m => m.id < bp) := by
    rw [List.filter_filter]
    apply List.filter_congr
    intro x _
    by_cases hx : x.id < bp
    · simp [hx, Nat.lt_trans hx hb]
    · simp [hx]
  rw [hsub]
  rw [List.length_filter_lt_length_iff_exists]
  refine ⟨msg, ?_, by simp [hid]⟩
  rw [List.mem_filter]
  exact ⟨hmem, by simp [hid, hb]⟩

/-- Cutting the forward filter at a strictly larger cursor that is the id of
a store record strictly shrinks the filtered store. -/
lemma filter_gt_strict (store : List Msg) (a ap : Nat) (ha : a < ap) (msg : Msg)
    (hmem : msg ∈ store) (hid : msg.id = ap) :
    (store.filter (fun m => ap < m.id)).length < (store.filter (fun m => a < m.id)).length := by
  have hsub : store.filter (fun m => ap < m.id)
      = (store.filter (fun m => a < m.id)).filter (fun m => ap < m.id) := by
    rw [List.filter_filter]
    apply List.filter_congr
    intro x _
    by_cases hx : ap < x.id
    · simp [hx, Nat.lt_trans ha hx]
    · simp [hx]
  rw [hsub]
  rw [List.length_filter_lt_length_iff_exists]
  refine ⟨msg, ?_, by simp [hid]⟩
  rw [List.mem_filter]
  exact ⟨hmem, by simp [hid, ha]⟩

/-- The backward loop over a simulated store succeeds whenever the fuel
exceeds the number of records older than the cursor. -/
lemma backLoop_total (store : List Msg) (s e : Int) (maxN : Nat) :
    ∀ (fuel : Nat) (map raw : List Msg) (b : Nat) (stop : Option Int) (calls : Nat),
      (store.filter (fun m => m.id < b)).length < fuel →
      ∃ out, backLoop (storeChannel store) s e maxN fuel map raw b stop calls = .ok out := by
  intro fuel
  induction fuel with
  | zero => intro map raw b stop calls hlt; omega
  | succ f ih =>
    intro map raw b stop calls hlt
    simp only [backLoop]
    by_cases hlen : map.length < maxN
    · rw [if_pos hlen]
      have hch : storeChannel store (.before (some b) 100)
          = .ok ((store.filter (fun m => m.id < b)).take 100) := rfl
      rw [hch]
      cases hbatch : (store.filter (fun m => m.id < b)).take 100 with
      | nil => exact ⟨_, rfl⟩
      | cons m0 bs =>
        dsimp only
        by_cases hhit : (backBatch s e maxN (m0 :: bs) map raw b stop).hitLimit = true
        · rw [if_pos hhit]; exact ⟨_, rfl⟩
        · rw [if_neg hhit]
          by_cases hrs : (backBatch s e maxN (m0 :: bs) map raw b stop).reachedStart = true
          · rw [if_pos hrs]; exact ⟨_, rfl⟩
          · rw [if_neg hrs]
            rcases backBatch_beforeId s e maxN (m0 :: bs) map raw b stop
                (Bool.not_eq_true _ ▸ hhit) (Bool.not_eq_true _ ▸ hrs) with
              ⟨msg, hmm, hbid⟩ | ⟨hnil, _⟩
            swap
            · exact absurd hnil (List.cons_ne_nil m0 bs)
            · apply ih
              have hmsg : msg ∈ store.filter (fun m => m.id < b) := by
                have : msg ∈ (store.filter (fun m => m.id < b)).take 100 := hbatch ▸ hmm
                exact List.take_subset _ _ this
              rw [List.mem_filter] at hmsg
              have hlt2 : msg.id < b := by simpa using hmsg.2
              rw [hbid]
              have := filter_lt_strict store b msg.id hlt2 msg hmsg.1 rfl
              omega
    · rw [if_neg hlen]; exact ⟨_, rfl⟩

/-- The forward loop over a simulated store succeeds whenever the fuel
exceeds the number of records newer than the cursor. -/
lemma fwdLoop_total (store : List Msg) (s e : Int) (maxN : Nat) :
    ∀ (fuel : Nat) (map raw : List Msg) (a : Nat) (stop : Option Int) (hit re : Bool)
      (calls : Nat),
      (store.filter (fun m => a < m.id)).length < fuel →
      ∃ out, fwdLoop (storeChannel store) s e maxN fuel map raw a stop hit re calls = .ok out := by
  intro fuel
  induction fuel with
  | zero => intro map raw a stop hit re calls hlt; omega
  | succ f ih =>
    intro map raw a stop hit re calls hlt
    simp only [fwdLoop]
    by_cases hc : map.length < maxN ∧ hit = false
    · rw [if_pos hc]
      have hch : storeChannel store (.after a 100)
          = .ok (fetchAfterStore store a 100) := rfl
      rw [hch]
      cases hbatch : fetchAfterStore store a 100 with
      | nil => exact ⟨_, rfl⟩
      | cons m0 bs =>
        dsimp only
        by_cases hhit : (fwdBatch s e maxN (m0 :: bs) map raw stop re true).hitLimit = true
        · rw [if_pos hhit]; exact ⟨_, rfl⟩
        · rw [if_neg hhit]
          by_cases hab : (fwdBatch s e maxN (m0 :: bs) map raw stop re true).allBeyond = true
              ∧ (fwdBatch s e maxN (m0 :: bs) map raw stop re true).reachedEnd = true
          · rw [if_pos hab]; exact ⟨_, rfl⟩
          · rw [if_neg hab]
            apply ih
            have hm0 : m0 ∈ fetchAfterStore store a 100 := by
              rw [hbatch]; exact List.mem_cons_self _ _
            have hm0f : m0 ∈ store.filter (fun m => a < m.id) := by
              unfold fetchAfterStore at hm0
              rw [List.mem_reverse] at hm0
              have := List.take_subset 100 (store.filter (fun m => a < m.id)).reverse hm0
              rwa [List.mem_reverse] at this
            rw [List.mem_filter] at hm0f
            have hlt2 : a < m0.id := by simpa using hm0f.2
            have := filter_gt_strict store a m0.id hlt2 m0 hm0f.1 rfl
            omega
    · rw [if_neg hc]; exact ⟨_, rfl⟩

/-- C5: over the simulated remote store (strictly-older `fetchBefore`,
strictly-newer `fetchAfter`, empty batch at end of history) the expansion
terminates: a fuel budget of one remote call more than the store size always
suffices for `expandFromAnchor` to return, for every window and every max. -/
theorem C5_expand_terminates (store : List Msg) (anchor : Msg) (s e : Int) (maxN : Nat) :
    ∃ r, expandFromAnchor (storeChannel store) (some anchor) s e maxN
        (store.length + 1) = .ok r := by
  simp only [expandFromAnchor]
  have hfilterB : (store.filter (fun m => m.id < anchor.id)).length < store.length + 1 :=
    Nat.lt_succ_of_le (List.length_filter_le _ _)
  obtain ⟨back, hback⟩ := backLoop_total store s e maxN (store.length + 1)
    (if s ≤ anchor.createdTimestamp ∧ anchor.createdTimestamp ≤ e then [anchor] else [])
    [anchor] anchor.id none 0 hfilterB
  rw [hback]
  dsimp only
  have hfilterF : (store.filter (fun m => anchor.id < m.id)).length < store.length + 1 :=
    Nat.lt_succ_of_le (List.length_filter_le _ _)
  obtain ⟨fwd, hfwd⟩ := fwdLoop_total store s e maxN (store.length + 1) back.map back.raw
    anchor.id back.stopTime back.hitLimit false back.apiCalls hfilterF
  rw [hfwd]
  exact ⟨_, rfl⟩

/-- The processed-id accumulator step of `buildOpenAIInput`. -/
def addId (s : List Nat) (m : Msg) : List Nat :=
  if s.contains m.id then s else s ++ [m.id]

/-- Folding `addId` preserves membership of the processed set. -/
lemma foldl_addId_mono :
    ∀ (l : List Msg) (s : List Nat) (i : Nat), s.contains i = true →
      (l.foldl addId s).contains i = true := by
  intro l
  induction l with
  | nil => intro s i h; simpa using h
  | cons a l ih =>
    intro s i h
    simp only [List.foldl_cons]
    apply ih
    unfold addId
    split
    · exact h
    · exact List.elem_eq_true_of_mem
        (List.mem_append.mpr (Or.inl (List.mem_of_elem_eq_true h)))

/-- Folding `addId` records every processed message id. -/
lemma foldl_addId_mem :
    ∀ (l : List Msg) (s : List Nat) (m : Msg), m ∈ l →
      (l.foldl addId s).contains m.id = true := by
  intro l
  induction l with
  | nil => intro s m h; simp at h
  | cons a l ih =>
    intro s m h
    simp only [List.foldl_cons]
    rcases List.mem_cons.mp h with h1 | h1
    · subst h1
      apply foldl_addId_mono
      unfold addId
      split
      · assumption
      · simp
    · exact ih _ _ h1

/-- C10: `buildOpenAIInput` is stateful across invocations through the
module-level `processedMessageIds` set: starting from the fresh module
state, a second call with the identical nonempty list, prompt and bot id
returns only the system message — every list record is omitted — so the
two calls return different outputs. -/
theorem C10_buildOpenAIInput_stateful (tz : Int) (sorted : List Msg) (p : String)
    (botId : Nat) (h : sorted ≠ []) :
    (buildOpenAIInput tz (buildOpenAIInput tz [] sorted p botId).2 sorted p botId).1
      = [systemMessage p]
    ∧ (buildOpenAIInput tz (buildOpenAIInput tz [] sorted p botId).2 sorted p botId).1
      ≠ (buildOpenAIInput tz [] sorted p botId).1 := by
  have hfilter1 : sorted.filter (fun m => !((([] : List Nat)).contains m.id)) = sorted := by
    apply List.filter_eq_self.mpr
    intro a _
    simp
  have hs1 : (buildOpenAIInput tz [] sorted p botId).2 = sorted.foldl addId [] := by
    simp only [buildOpenAIInput, hfilter1]
    rfl
  have hall : ∀ m ∈ sorted, ((buildOpenAIInput tz [] sorted p botId).2).contains m.id = true := by
    intro m hm
    rw [hs1]
    exact foldl_addId_mem sorted [] m hm
  have hfilter2 : sorted.filter
      (fun m => !(((buildOpenAIInput tz [] sorted p botId).2).contains m.id)) = [] := by
    apply List.filter_eq_nil_iff.mpr
    intro a ha
    rw [hall a ha]
    simp
  constructor
  · show systemMessage p :: (sorted.filter
        (fun m => !(((buildOpenAIInput tz [] sorted p botId).2).contains m.id))).map _
      = [systemMessage p]
    rw [hfilter2]
    rfl
  · intro hcon
    have h1 : (buildOpenAIInput tz (buildOpenAIInput tz [] sorted p botId).2 sorted p botId).1.length
        = 1 := by
      show (systemMessage p :: (sorted.filter
        (fun m => !(((buildOpenAIInput tz [] sorted p botId).2).contains m.id))).map _).length = 1
      rw [hfilter2]
      rfl
    have h2 : (buildOpenAIInput tz [] sorted p botId).1.length = 1 + sorted.length := by
      show (systemMessage p :: (sorted.filter
        (fun m => !((([] : List Nat)).contains m.id))).map _).length = 1 + sorted.length
      rw [hfilter1]
      simp [Nat.add_comm]
    rw [hcon, h2] at h1
    have : sorted.length ≠ 0 := fun hz => h (List.length_eq_zero.mp hz)
    omega

/-- Witness for C10 at a concrete one-record list. -/
theorem C10_buildOpenAIInput_stateful_witness :
    (buildOpenAIInput 0 (buildOpenAIInput 0 [] [wAnchor1] "prompt" 7).2 [wAnchor1] "prompt" 7).1
      = [systemMessage "prompt"]
    ∧ (buildOpenAIInput 0 (buildOpenAIInput 0 [] [wAnchor1] "prompt" 7).2 [wAnchor1] "prompt" 7).1
      ≠ (buildOpenAIInput 0 [] [wAnchor1] "prompt" 7).1 :=
  C10_buildOpenAIInput_stateful 0 [wAnchor1] "prompt" 7 (by simp [wAnchor1])

/-- C6: whenever some call of the optimized path throws (the around fetch,
the snowflake encoding, or any expansion fetch — equivalently, the try block
of `fetchMessagesOptimized` ends in a thrown error), the error is not
propagated: the function returns the linear `fetchMessages` walk over the
same window marked `usedFallback` and `hadError`; only a failure of that
fallback itself reaches the caller. -/
theorem C6_optimized_error_fallback (ch : Channel) (s e : Int) (maxN fuel : Nat)
    (emsg : String) (herr : optTry ch s e maxN fuel = .error (.thrown emsg)) :
    (∀ r, fetchMessages ch s e maxN fuel = .ok r →
        fetchMessagesOptimized ch s e maxN fuel
          = .ok ⟨r.sorted, r.rawLog, r.hitLimit, r.stopTime, 0, true, true⟩)
    ∧ (∀ err, fetchMessages ch s e maxN fuel = .error err →
        fetchMessagesOptimized ch s e maxN fuel = .error err) := by
  constructor
  · intro r hr
    simp only [fetchMessagesOptimized, herr, hr]
  · intro err herr2
    simp only [fetchMessagesOptimized, herr, herr2]

/-- A channel whose `around` primitive throws and whose pagination
primitives return empty history. -/
def wErrCh : Channel := fun req =>
  match req with
  | .around _ _ => .error "remote failure"
  | .before _ _ => .ok []
  | .after _ _ => .ok []

/-- Witness for C6: the `around` call throws, and the result is the linear
walk's result decorated with the fallback flags. -/
theorem C6_optimized_error_fallback_witness :
    optTry wErrCh DISCORD_EPOCH DISCORD_EPOCH 10 3 = .error (.thrown "remote failure")
    ∧ fetchMessagesOptimized wErrCh DISCORD_EPOCH DISCORD_EPOCH 10 3
        = .ok ⟨[], [], false, none, 0, true, true⟩ :=
  ⟨rfl,
   (C6_optimized_error_fallback wErrCh DISCORD_EPOCH DISCORD_EPOCH 10 3 "remote failure"
      rfl).1 ⟨[], [], false, none⟩ rfl⟩

/-- One Gregorian year advances the epoch day count by that year's length. -/
lemma dayFromYear_succ (y : Int) :
    dayFromYear (y + 1) = dayFromYear y + (daysInYear y : Int) := by
  unfold dayFromYear daysInYear isLeap
  split
  case isTrue h =>
    simp only [Bool.or_eq_true, Bool.and_eq_true, beq_iff_eq, bne_iff_ne, ne_eq] at h
    omega
  case isFalse h =>
    simp only [Bool.or_eq_true, Bool.and_eq_true, beq_iff_eq, bne_iff_ne, ne_eq] at h
    push_neg at h
    omega

/-- Every year has at least 365 days. -/
lemma daysInYear_ge (y : Int) : 365 ≤ daysInYear y := by
  unfold daysInYear
  split <;> omega

/-- The epoch day count is monotone in the year. -/
lemma dayFromYear_mono {y1 y2 : Int} (h : y1 ≤ y2) : dayFromYear y1 ≤ dayFromYear y2 := by
  refine Int.le_induction (P := fun n => dayFromYear y1 ≤ dayFromYear n) (le_refl _) ?_ y2 h
  intro n _ ih
  rw [dayFromYear_succ]
  have := daysInYear_ge n
  omega

/-- A year together with an in-range day offset is determined by the epoch
day count. -/
lemma yearDoy_unique {y1 y2 : Int} {k1 k2 : Nat} (h1 : k1 < daysInYear y1)
    (h2 : k2 < daysInYear y2)
    (heq : dayFromYear y1 + (k1 : Int) = dayFromYear y2 + (k2 : Int)) :
    y1 = y2 ∧ k1 = k2 := by
  rcases lt_trichotomy y1 y2 with hlt | hy | hlt
  · exfalso
    have hm : dayFromYear (y1 + 1) ≤ dayFromYear y2 := dayFromYear_mono (by omega)
    rw [dayFromYear_succ] at hm
    omega
  · subst hy
    exact ⟨rfl, by omega⟩
  · exfalso
    have hm : dayFromYear (y2 + 1) ≤ dayFromYear y1 := dayFromYear_mono (by omega)
    rw [dayFromYear_succ] at hm
    omega

/-- Characterization of the upward year search: it converts an epoch-day
offset from the base year into a year and an in-range day-of-year. -/
lemma findYearF_spec :
    ∀ (fuel : Nat) (y : Int) (d : Nat), d < fuel →
      dayFromYear (findYearF fuel y d).1 + ((findYearF fuel y d).2 : Int)
          = dayFromYear y + (d : Int)
        ∧ (findYearF fuel y d).2 < daysInYear (findYearF fuel y d).1 := by
  intro fuel
  induction fuel with
  | zero => intro y d h; omega
  | succ f ih =>
    intro y d h
    simp only [findYearF]
    by_cases h1 : d < daysInYear y
    · rw [if_pos h1]
      exact ⟨rfl, h1⟩
    · rw [if_neg h1]
      have h365 := daysInYear_ge y
      have hrec := ih (y + 1) (d - daysInYear y) (by omega)
      refine ⟨?_, hrec.2⟩
      rw [hrec.1, dayFromYear_succ]
      omega

/-- Characterization of the downward year search for negative day offsets. -/
lemma findYearNegF_spec :
    ∀ (fuel : Nat) (y : Int) (d : Int), d < 0 → -d ≤ 365 * fuel →
      dayFromYear (findYearNegF fuel y d).1 + ((findYearNegF fuel y d).2 : Int)
          = dayFromYear y + d
        ∧ (findYearNegF fuel y d).2 < daysInYear (findYearNegF fuel y d).1 := by
  intro fuel
  induction fuel with
  | zero => intro y d h1 h2; omega
  | succ f ih =>
    intro y d h1 h2
    simp only [findYearNegF]
    have h365 := daysInYear_ge (y - 1)
    by_cases h3 : 0 ≤ d + (daysInYear (y - 1) : Int)
    · rw [if_pos h3]
      constructor
      · have : dayFromYear (y - 1 + 1) = dayFromYear (y - 1) + (daysInYear (y - 1) : Int) :=
          dayFromYear_succ (y - 1)
        simp only [sub_add_cancel] at this
        simp only []
        omega
      · simp only []
        omega
    · rw [if_neg h3]
      have hrec := ih (y - 1) (d + (daysInYear (y - 1) : Int)) (by omega) (by
        push_cast at h2
        omega)
      refine ⟨?_, hrec.2⟩
      rw [hrec.1]
      have : dayFromYear (y - 1 + 1) = dayFromYear (y - 1) + (daysInYear (y - 1) : Int) :=
        dayFromYear_succ (y - 1)
      simp only [sub_add_cancel] at this
      omega

/-- The year and day-of-year extraction satisfies the epoch-day equation. -/
lemma yearDoyOfDay_spec (d : Int) :
    dayFromYear (yearDoyOfDay d).1 + ((yearDoyOfDay d).2 : Int) = d
      ∧ (yearDoyOfDay d).2 < daysInYear (yearDoyOfDay d).1 := by
  unfold yearDoyOfDay
  have hbase : dayFromYear 1970 = 0 := by decide
  by_cases h : 0 ≤ d
  · rw [if_pos h]
    have hspec := findYearF_spec (d.toNat + 1) 1970 d.toNat (by omega)
    rw [hbase] at hspec
    constructor
    · rw [hspec.1]; omega
    · exact hspec.2
  · rw [if_neg h]
    have hspec := findYearNegF_spec d.natAbs 1970 d (by omega) (by
      have : (d.natAbs : Int) = -d := by omega
      omega)
    rw [hbase] at hspec
    constructor
    · rw [hspec.1]; omega
    · exact hspec.2

/-- The month table of a year sums to the year length. -/
lemma monthLengths_sum (y : Int) : (monthLengths (isLeap y)).sum = daysInYear y := by
  unfold daysInYear
  cases h : isLeap y <;> simp [monthLengths]

/-- Characterization of the month search: the month is the unique prefix
count whose cumulative length brackets the day-of-year, and the day of month
is the remainder. -/
lemma findMonth_spec :
    ∀ (table : List Nat) (m0 d : Nat), d < table.sum →
      ∃ j, j < table.length ∧ (findMonth table m0 d).1 = m0 + j
        ∧ (table.take j).sum ≤ d ∧ d < (table.take (j + 1)).sum
        ∧ (findMonth table m0 d).2 = d - (table.take j).sum := by
  intro table
  induction table with
  | nil => intro m0 d h; simp at h
  | cons len rest ih =>
    intro m0 d h
    simp only [findMonth]
    by_cases h1 : d < len
    · rw [if_pos h1]
      exact ⟨0, by simp, by simp, by simp, by simpa using h1, by simp⟩
    · rw [if_neg h1]
      have hsum : (len :: rest).sum = len + rest.sum := by simp
      obtain ⟨j, hj1, hj2, hj3, hj4, hj5⟩ := ih (m0 + 1) (d - len) (by omega)
      refine ⟨j + 1, by simpa using hj1, ?_, ?_, ?_, ?_⟩
      · rw [hj2]; omega
      · simp only [List.take_succ_cons, List.sum_cons]; omega
      · simp only [List.take_succ_cons, List.sum_cons]; omega
      · simp only [List.take_succ_cons, List.sum_cons]; omega

/-- Cumulative month-prefix sums are monotone in the month count. -/
lemma take_sum_mono (table : List Nat) {j1 j2 : Nat} (h : j1 ≤ j2) :
    (table.take j1).sum ≤ (table.take j2).sum := by
  induction table generalizing j1 j2 with
  | nil => simp
  | cons a l ih =>
    cases j1 with
    | zero => simp
    | succ j1 =>
      cases j2 with
      | zero => omega
      | succ j2 =>
        simp only [List.take_succ_cons, List.sum_cons]
        have := ih (Nat.succ_le_succ_iff.mp h)
        omega

/-- The round trip from a day number through civil extraction and the JS
`MakeDay` constructor is the identity. -/
lemma makeDay_dayToCivil (d : Int) :
    makeDay (dayToCivil d).1 ((dayToCivil d).2.1 : Int) ((dayToCivil d).2.2 : Int) = d := by
  unfold dayToCivil monthDayOfYear
  have hyd := yearDoyOfDay_spec d
  obtain ⟨j, hj1, hj2, hj3, hj4, hj5⟩ := findMonth_spec (monthLengths (isLeap (yearDoyOfDay d).1))
      0 (yearDoyOfDay d).2 (by rw [monthLengths_sum]; exact hyd.2)
  simp only []
  rw [hj2, hj5]
  unfold makeDay
  have hj12 : j < 12 := by simpa [monthLengths] using hj1
  have hjdiv : ((0 + j : Nat) : Int) / 12 = 0 := by
    rw [Int.ediv_eq_zero_of_lt] <;> [skip; skip] <;> omega
  have hjmod : ((0 + j : Nat) : Int) % 12 = ((0 + j : Nat) : Int) := by
    rw [Int.emod_eq_of_lt] <;> omega
  rw [hjdiv, hjmod]
  simp only [add_zero]
  have htoNat : (((0 + j : Nat) : Int)).toNat = j := by omega
  rw [htoNat]
  unfold daysBeforeMonth
  have hfinal := hyd.1
  omega

/-- Stepping one day either stays in the year with the next day-of-year or
rolls into day zero of the next year. -/
lemma yearDoyOfDay_succ (d : Int) :
    yearDoyOfDay (d + 1) =
      if (yearDoyOfDay d).2 + 1 < daysInYear (yearDoyOfDay d).1
      then ((yearDoyOfDay d).1, (yearDoyOfDay d).2 + 1)
      else ((yearDoyOfDay d).1 + 1, 0) := by
  have h1 := yearDoyOfDay_spec d
  have h2 := yearDoyOfDay_spec (d + 1)
  split
  case isTrue h =>
    have hu := yearDoy_unique h2.2 h (by push_cast; omega)
    rw [Prod.ext_iff]
    exact ⟨hu.1, hu.2⟩
  case isFalse h =>
    have heq : (yearDoyOfDay d).2 + 1 = daysInYear (yearDoyOfDay d).1 := by omega
    have hbound : 0 < daysInYear ((yearDoyOfDay d).1 + 1) := by
      have := daysInYear_ge ((yearDoyOfDay d).1 + 1)
      omega
    have hu := yearDoy_unique h2.2 hbound (by
      rw [dayFromYear_succ]
      push_cast
      omega)
    rw [Prod.ext_iff]
    exact ⟨hu.1, hu.2⟩

/-- The month search is monotone in the day-of-year. -/
lemma findMonth_mono (table : List Nat) {d1 d2 : Nat} (h : d1 ≤ d2) (hlt : d2 < table.sum) :
    (findMonth table 0 d1).1 ≤ (findMonth table 0 d2).1 := by
  obtain ⟨j1, hj11, hj12, hj13, hj14, _⟩ := findMonth_spec table 0 d1 (by omega)
  obtain ⟨j2, hj21, hj22, hj23, hj24, _⟩ := findMonth_spec table 0 d2 hlt
  rw [hj12, hj22]
  by_contra hcon
  have hjj : j2 + 1 ≤ j1 := by omega
  have := take_sum_mono table hjj
  omega

/-- The linear month index never decreases from one day to the next. -/
lemma monthIdxOfDay_step (d : Int) : monthIdxOfDay d ≤ monthIdxOfDay (d + 1) := by
  unfold monthIdxOfDay dayToCivil monthDayOfYear
  have h1 := yearDoyOfDay_spec d
  rw [yearDoyOfDay_succ d]
  split
  case isTrue h =>
    simp only []
    have hmono := findMonth_mono (monthLengths (isLeap (yearDoyOfDay d).1))
      (show (yearDoyOfDay d).2 ≤ (yearDoyOfDay d).2 + 1 by omega)
      (by rw [monthLengths_sum]; exact h)
    omega
  case isFalse h =>
    simp only []
    obtain ⟨j, hj1, hj2, _, _, _⟩ := findMonth_spec (monthLengths (isLeap (yearDoyOfDay d).1))
      0 (yearDoyOfDay d).2 (by rw [monthLengths_sum]; exact h1.2)
    have hj12 : j < 12 := by simpa [monthLengths] using hj1
    have hge : 0 ≤ (findMonth (monthLengths (isLeap ((yearDoyOfDay d).1 + 1))) 0 0).1 := by omega
    rw [hj2]
    omega

/-- The linear month index of a day number is monotone. -/
lemma monthIdxOfDay_mono {d1 d2 : Int} (h : d1 ≤ d2) :
    monthIdxOfDay d1 ≤ monthIdxOfDay d2 :=
  Int.le_induction (P := fun n => monthIdxOfDay d1 ≤ monthIdxOfDay n) (le_refl _)
    (fun n _ ih => le_trans ih (monthIdxOfDay_step n)) d2 h

/-- The local month index of an instant is monotone. -/
lemma monthIdxOfMs_mono (tz : Int) {t1 t2 : Int} (h : t1 ≤ t2) :
    monthIdxOfMs tz t1 ≤ monthIdxOfMs tz t2 := by
  unfold monthIdxOfMs
  exact monthIdxOfDay_mono (Int.ediv_le_ediv (by norm_num [msPerDay]) (by omega))

/-- C8: for every input text and every current instant, `parseDateRange`
never returns a window with `startUTC > endUTC`: whenever it returns a
window at all, the start is at most the end (otherwise it returns null). -/
theorem C8_parseDateRange_ordered (tz now : Int) (content : String) (w : TimeWindow)
    (h : parseDateRange tz now content = some w) : w.startUTC ≤ w.endUTC := by
  unfold parseDateRange at h
  cases hm : matchToken content.toList with
  | none => rw [hm] at h; exact absurd h (by simp)
  | some pr =>
    rw [hm] at h
    obtain ⟨sStr, eo⟩ := pr
    cases eo with
    | none =>
      dsimp only at h
      cases hp : parseDate tz now sStr with
      | none => rw [hp] at h; exact absurd h (by simp)
      | some p =>
        rw [hp] at h
        dsimp only at h
        split at h
        · exact absurd h (by simp)
        · next hcond =>
            have hw := Option.some.inj h
            rw [← hw]
            dsimp only
            omega
    | some eStr =>
      dsimp only at h
      cases hp : parseDate tz now sStr with
      | none => rw [hp] at h; exact absurd h (by simp)
      | some sd =>
        cases hq : parseDate tz now eStr with
        | none => rw [hp, hq] at h; exact absurd h (by simp)
        | some ed =>
          rw [hp, hq] at h
          dsimp only at h
          split at h
          all_goals
            split at h
            · exact absurd h (by simp)
            · next hcond =>
                have hw := Option.some.inj h
                rw [← hw]
                dsimp only
                omega

/-- Concrete token for the witness of C8. -/
theorem C8_parseDateRange_ordered_witness :
    ∃ w, parseDateRange 0 1750000000000 "see \x7b03/05/2024 - 03/07/2024\x7d" = some w
      ∧ w.startUTC ≤ w.endUTC := by
  cases hw : parseDateRange 0 1750000000000 "see \x7b03/05/2024 - 03/07/2024\x7d" with
  | none => exact absurd hw (by decide)
  | some w => exact ⟨w, rfl, C8_parseDateRange_ordered 0 1750000000000 _ w hw⟩

/-- C4 counterexample: at a concrete mid-day instant, `parseDateRange` on
the bare token `Today` (in braces) returns a window whose right edge is not
the call instant. -/
theorem C4_today_endUTC_counterexample :
    parseDateRange 0 1750000000000 "\x7bToday\x7d" = some ⟨1749945600000, 1750031999999⟩
      ∧ (1750031999999 : Int) ≠ 1750000000000 := by
  constructor
  · decide
  · decide

/-- C4 amended: for every current instant and fixed local offset, the bare
token `Today` parses to the full current local civil day: the left edge is
local midnight of the day containing the instant and the right edge is
23:59:59.999 of that same day (not the call instant). -/
theorem C4_today_window (tz now : Int) :
    parseDateRange tz now "\x7bToday\x7d"
      = some ⟨msPerDay * ((now + tz) / msPerDay) - tz,
              msPerDay * ((now + tz) / msPerDay) - tz + 86399999⟩ := by
  have hm : matchToken "\x7bToday\x7d".data = some ("Today", none) := by decide
  have hmk0 : mkLocalDate tz (localCivil tz now).1 ((localCivil tz now).2.1 : Int)
      ((localCivil tz now).2.2 : Int) 0 0 0 0 = msPerDay * ((now + tz) / msPerDay) - tz := by
    unfold mkLocalDate localCivil
    rw [makeDay_dayToCivil]
    unfold makeTime
    ring_nf
  have hmk1 : mkLocalDate tz (localCivil tz now).1 ((localCivil tz now).2.1 : Int)
      ((localCivil tz now).2.2 : Int) 23 59 59 999
        = msPerDay * ((now + tz) / msPerDay) - tz + 86399999 := by
    unfold mkLocalDate localCivil
    rw [makeDay_dayToCivil]
    unfold makeTime
    ring_nf
  unfold parseDateRange
  have hlist : "\x7bToday\x7d".toList = "\x7bToday\x7d".data := rfl
  rw [hlist, hm]
  dsimp only
  have hp : parseDate tz now "Today" = some now := by
    unfold parseDate
    rw [if_pos (by decide)]
  rw [hp]
  dsimp only
  rw [hmk0, hmk1]
  rw [if_neg (by omega)]

/-- C9: evaluation of `parseDate` at the failing input `25/03/2024`
(first component exceeding 12).  The `MM/DD/YYYY` attempt
`new Date(2024, 24, 3)` never yields an Invalid Date — the constructor
rolls the month over, here to January 3 2026 — so the `DD/MM/YYYY`
fallback the comments and the specification describe is unreachable, and
the result is not March 25 2024 (day 25, month 3). -/
theorem C9_parseDate_ddmm_unreachable :
    parseDate 0 0 "25/03/2024" = some 1767398400000
    ∧ mkLocalDate 0 2026 0 3 0 0 0 0 = 1767398400000
    ∧ mkLocalDate 0 2024 2 25 0 0 0 0 = 1711324800000
    ∧ parseDate 0 0 "25/03/2024" ≠ some (mkLocalDate 0 2024 2 25 0 0 0 0) := by
  refine ⟨by decide, by decide, by decide, by decide⟩

/-- The ascending-timestamp relation on index entries. -/
def tsLEe (a b : IndexedEntry) : Prop := a.createdTimestamp ≤ b.createdTimestamp

instance : DecidableRel tsLEe := fun a b => Int.decLe _ _

instance : IsTotal IndexedEntry tsLEe := ⟨fun a b => Int.le_total _ _⟩

instance : IsTrans IndexedEntry tsLEe := ⟨fun _ _ _ h1 h2 => Int.le_trans h1 h2⟩

/-- A month file after a sequence of appends holds the initial file contents
followed by the projections of exactly the appended messages keyed to it, in
append order. -/
lemma runAppends_spec (tz : Int) (msgs : List ChannelMsg) :
    ∀ (fs : IndexFS) (cid : String) (idx : Int),
      runAppends tz true msgs fs cid idx
        = fs cid idx ++ (msgs.filter (fun m =>
            decide (cid = m.channelId ∧ idx = monthIdxOfMs tz m.msg.createdTimestamp))).map
            (fun m => entryOf m.msg) := by
  induction msgs with
  | nil => intro fs cid idx; simp [runAppends]
  | cons m rest ih =>
    intro fs cid idx
    show runAppends tz true rest (appendMessage tz true fs m) cid idx = _
    rw [ih]
    unfold appendMessage
    rw [if_neg (by simp)]
    by_cases hc : cid = m.channelId ∧ idx = monthIdxOfMs tz m.msg.createdTimestamp
    · rw [List.filter_cons_of_pos (by simpa using hc)]
      simp only [if_pos hc, List.map_cons]
      rw [List.append_cons, List.append_assoc]
      simp
    · rw [List.filter_cons_of_neg (by simpa using hc)]
      simp only [if_neg hc]

/-- C3: after any finite sequence of `appendMessage` calls in any order,
`getMessagesByDateRange` returns exactly the appended records of the queried
channel whose timestamp lies in the inclusive window — every such record
present, none outside the window or from another channel present — sorted
ascending by `createdTimestamp`. -/
theorem C3_index_roundtrip (tz : Int) (msgs : List ChannelMsg) (cid : String) (s e : Int) :
    (∀ entry, entry ∈ getMessagesByDateRange tz true (runAppends tz true msgs emptyFS) cid s e
      ↔ (∃ m ∈ msgs, m.channelId = cid ∧ entryOf m.msg = entry)
          ∧ s ≤ entry.createdTimestamp ∧ entry.createdTimestamp ≤ e)
    ∧ (getMessagesByDateRange tz true (runAppends tz true msgs emptyFS) cid s e).Sorted tsLEe := by
  unfold getMessagesByDateRange
  rw [if_neg (by simp)]
  refine ⟨?_, List.sorted_insertionSort _ _⟩
  intro entry
  have hperm := List.perm_insertionSort
    (fun a b : IndexedEntry => a.createdTimestamp ≤ b.createdTimestamp)
    (((List.range (monthIdxOfMs tz e - monthIdxOfMs tz s + 1).toNat).flatMap
        (fun k => runAppends tz true msgs emptyFS cid (monthIdxOfMs tz s + k))).filter
      (fun o => decide (s ≤ o.createdTimestamp ∧ o.createdTimestamp ≤ e)))
  unfold tsSortedE
  rw [List.Perm.mem_iff hperm]
  rw [List.mem_filter, List.mem_flatMap]
  constructor
  · rintro ⟨⟨k, hk, hmem⟩, hwin⟩
    rw [runAppends_spec] at hmem
    simp only [emptyFS, List.nil_append, List.mem_map, List.mem_filter] at hmem
    obtain ⟨m, ⟨hm, hcond⟩, hentry⟩ := hmem
    simp only [decide_eq_true_eq] at hcond
    simp only [decide_eq_true_eq] at hwin
    exact ⟨⟨m, hm, hcond.1.symm, hentry⟩, hwin⟩
  · rintro ⟨⟨m, hm, hch, hentry⟩, hs, he⟩
    have hts : entry.createdTimestamp = m.msg.createdTimestamp := by
      rw [← hentry]
      rfl
    have hlo : monthIdxOfMs tz s ≤ monthIdxOfMs tz m.msg.createdTimestamp :=
      monthIdxOfMs_mono tz (by omega)
    have hhi : monthIdxOfMs tz m.msg.createdTimestamp ≤ monthIdxOfMs tz e :=
      monthIdxOfMs_mono tz (by omega)
    refine ⟨⟨(monthIdxOfMs tz m.msg.createdTimestamp - monthIdxOfMs tz s).toNat, ?_, ?_⟩, ?_⟩
    · rw [List.mem_range]
      omega
    · rw [runAppends_spec]
      simp only [emptyFS, List.nil_append, List.mem_map, List.mem_filter]
      refine ⟨m, ⟨hm, ?_⟩, hentry⟩
      simp only [decide_eq_true_eq]
      exact ⟨hch.symm, by omega⟩
    · simp only [decide_eq_true_eq]
      exact ⟨hs, he⟩

/-- Witness scaffolding for C3: two appended records in different months,
one in the window, one out. -/
def wMsgs3 : List ChannelMsg :=
  [⟨"chan", ⟨1, 1704067200000, "u", "a", "hello"⟩⟩,
   ⟨"chan", ⟨2, 1706745600000, "u", "a", "feb"⟩⟩,
   ⟨"other", ⟨3, 1704067200000, "u", "a", "elsewhere"⟩⟩]

/-- Witness for C3 at a concrete January 2024 window. -/
theorem C3_index_roundtrip_witness :
    ((⟨1, "u", "a", "hello", 1704067200000⟩ : IndexedEntry)
        ∈ getMessagesByDateRange 0 true (runAppends 0 true wMsgs3 emptyFS) "chan"
          1704000000000 1706000000000
      ↔ (∃ m ∈ wMsgs3, m.channelId = "chan"
            ∧ entryOf m.msg = (⟨1, "u", "a", "hello", 1704067200000⟩ : IndexedEntry))
          ∧ (1704000000000 : Int) ≤ 1704067200000 ∧ (1704067200000 : Int) ≤ 1706000000000)
    ∧ (getMessagesByDateRange 0 true (runAppends 0 true wMsgs3 emptyFS) "chan"
        1704000000000 1706000000000).Sorted tsLEe :=
  ⟨(C3_index_roundtrip 0 wMsgs3 "chan" 1704000000000 1706000000000).1 _,
   (C3_index_roundtrip 0 wMsgs3 "chan" 1704000000000 1706000000000).2⟩

/-- The in-window test as a Boolean predicate. -/
def inWinB (s e : Int) (m : Msg) : Bool :=
  decide (s ≤ m.createdTimestamp ∧ m.createdTimestamp ≤ e)

/-- In a newest-first wellformed segment, the last (oldest) record has the
minimal timestamp. -/
lemma getLast_ts_le :
    ∀ (B : List Msg), B.Pairwise (fun a b => b.id < a.id ∧ b.createdTimestamp ≤ a.createdTimestamp) →
      ∀ (h : B ≠ []) (x : Msg), x ∈ B → (B.getLast h).createdTimestamp ≤ x.createdTimestamp := by
  intro B
  induction B with
  | nil => intro _ h; exact absurd rfl h
  | cons a l ih =>
    intro hp h x hx
    cases l with
    | nil =>
      rw [List.mem_singleton] at hx
      subst hx
      exact le_refl _
    | cons b t =>
      have hpl : (b :: t).Pairwise
          (fun a b => b.id < a.id ∧ b.createdTimestamp ≤ a.createdTimestamp) :=
        (List.pairwise_cons.mp hp).2
      rw [List.getLast_cons (List.cons_ne_nil b t)]
      rcases List.mem_cons.mp hx with h1 | h1
      · subst h1
        have hmem := List.getLast_mem (List.cons_ne_nil b t)
        have := (List.pairwise_cons.mp hp).1 _ hmem
        exact this.2
      · exact ih hpl (List.cons_ne_nil b t) x h1

/-- In a newest-first wellformed segment, the last (oldest) record has the
minimal id. -/
lemma getLast_id_le :
    ∀ (B : List Msg), B.Pairwise (fun a b => b.id < a.id ∧ b.createdTimestamp ≤ a.createdTimestamp) →
      ∀ (h : B ≠ []) (x : Msg), x ∈ B → (B.getLast h).id ≤ x.id := by
  intro B
  induction B with
  | nil => intro _ h; exact absurd rfl h
  | cons a l ih =>
    intro hp h x hx
    cases l with
    | nil =>
      rw [List.mem_singleton] at hx
      subst hx
      exact le_refl _
    | cons b t =>
      have hpl : (b :: t).Pairwise
          (fun a b => b.id < a.id ∧ b.createdTimestamp ≤ a.createdTimestamp) :=
        (List.pairwise_cons.mp hp).2
      rw [List.getLast_cons (List.cons_ne_nil b t)]
      rcases List.mem_cons.mp hx with h1 | h1
      · subst h1
        have hmem := List.getLast_mem (List.cons_ne_nil b t)
        have := (List.pairwise_cons.mp hp).1 _ hmem
        exact le_of_lt this.1
      · exact ih hpl (List.cons_ne_nil b t) x h1

/-- A wellformed batch whose record ids are fresh for the map is appended
to the map filtered to the window, provided the limit was not hit. -/
lemma fmBatch_run (s e : Int) (maxN : Nat) :
    ∀ (B map : List Msg) (c : Option Nat) (stop : Option Int),
      B.Pairwise (fun a b => b.id < a.id ∧ b.createdTimestamp ≤ a.createdTimestamp) →
      (∀ x ∈ map, ∀ y ∈ B, x.id ≠ y.id) →
      (fmBatch s e maxN B map c stop).hitLimit = false →
      (fmBatch s e maxN B map c stop).map = map ++ B.filter (inWinB s e) := by
  intro B
  induction B with
  | nil => intro map c stop _ _ _; simp [fmBatch]
  | cons msg rest ih =>
    intro map c stop hp hdis hhit
    have hpr : rest.Pairwise
        (fun a b => b.id < a.id ∧ b.createdTimestamp ≤ a.createdTimestamp) :=
      (List.pairwise_cons.mp hp).2
    simp only [fmBatch] at hhit ⊢
    by_cases h1 : msg.createdTimestamp < s
    · rw [if_pos h1] at hhit ⊢
      have hfilter : (msg :: rest).filter (inWinB s e) = [] := by
        rw [List.filter_eq_nil_iff]
        intro a ha
        rcases List.mem_cons.mp ha with h2 | h2
        · subst h2; simp [inWinB]; omega
        · have := ((List.pairwise_cons.mp hp).1 a h2).2
          simp [inWinB]; omega
      rw [hfilter]
      simp
    · rw [if_neg h1] at hhit ⊢
      by_cases h2 : e < msg.createdTimestamp
      · rw [if_pos h2] at hhit ⊢
        have hfilter : (msg :: rest).filter (inWinB s e) = rest.filter (inWinB s e) := by
          rw [List.filter_cons_of_neg (by simp [inWinB]; omega)]
        rw [hfilter]
        exact ih map (some msg.id) stop hpr
          (fun x hx y hy => hdis x hx y (List.mem_cons_of_mem _ hy)) hhit
      · have hwin : s ≤ msg.createdTimestamp ∧ msg.createdTimestamp ≤ e := by omega
        have hno : hasId map msg.id = false := by
          rw [hasId_eq_false_iff]
          intro x hx
          exact fun hcon => hdis x hx msg (List.mem_cons_self _ _) hcon
        rw [if_neg h2, if_pos hno] at hhit ⊢
        by_cases h3 : maxN ≤ (map ++ [msg]).length
        · rw [if_pos h3] at hhit; simp at hhit
        · rw [if_neg h3] at hhit ⊢
          have hdis2 : ∀ x ∈ map ++ [msg], ∀ y ∈ rest, x.id ≠ y.id := by
            intro x hx y hy
            rcases List.mem_append.mp hx with h4 | h4
            · exact hdis x h4 y (List.mem_cons_of_mem _ hy)
            · rw [List.mem_singleton] at h4
              subst h4
              exact Nat.ne_of_gt ((List.pairwise_cons.mp hp).1 y hy).1
          rw [ih (map ++ [msg]) (some msg.id) stop hpr hdis2 hhit]
          rw [List.filter_cons_of_pos (by simp [inWinB]; omega)]
          simp

/-- If the limit was not hit, the batch walk leaves the map strictly below
the limit, or untouched. -/
lemma fmBatch_len (s e : Int) (maxN : Nat) :
    ∀ (B map : List Msg) (c : Option Nat) (stop : Option Int),
      (fmBatch s e maxN B map c stop).hitLimit = false →
      (fmBatch s e maxN B map c stop).map.length < maxN
        ∨ (fmBatch s e maxN B map c stop).map = map := by
  intro B
  induction B with
  | nil => intro map c stop _; right; simp [fmBatch]
  | cons msg rest ih =>
    intro map c stop hhit
    simp only [fmBatch] at hhit ⊢
    by_cases h1 : msg.createdTimestamp < s
    · rw [if_pos h1] at hhit ⊢; right; rfl
    · rw [if_neg h1] at hhit ⊢
      by_cases h2 : e < msg.createdTimestamp
      · rw [if_pos h2] at hhit ⊢; exact ih map (some msg.id) stop hhit
      · rw [if_neg h2] at hhit ⊢
        by_cases h3 : hasId map msg.id = false
        · rw [if_pos h3] at hhit ⊢
          by_cases h4 : maxN ≤ (map ++ [msg]).length
          · rw [if_pos h4] at hhit; simp at hhit
          · rw [if_neg h4] at hhit ⊢
            rcases ih (map ++ [msg]) (some msg.id) stop hhit with h5 | h5
            · exact Or.inl h5
            · left
              rw [h5]
              simpa using h4
        · rw [if_neg h3] at hhit ⊢; exact ih map (some msg.id) stop hhit

/-- When no batch record predates the window, the batch walk advances the
cursor to the last (oldest) batch record. -/
lemma fmBatch_cursor (s e : Int) (maxN : Nat) :
    ∀ (B map : List Msg) (c : Option Nat) (stop : Option Int),
      (∀ x ∈ B, s ≤ x.createdTimestamp) →
      (fmBatch s e maxN B map c stop).hitLimit = false →
      (fmBatch s e maxN B map c stop).beforeId
        = (match B.getLast? with | none => c | some l => some l.id) := by
  intro B
  induction B with
  | nil => intro map c stop _ _; simp [fmBatch]
  | cons msg rest ih =>
    intro map c stop hge hhit
    have hms : ¬ msg.createdTimestamp < s := by
      have := hge msg (List.mem_cons_self _ _)
      omega
    have hlast : (msg :: rest).getLast? = (match rest.getLast? with
        | none => some msg
        | some l => some l) := by
      cases rest with
      | nil => rfl
      | cons b t =>
        rw [List.getLast?_cons_cons]
        cases hl : (b :: t).getLast? with
        | none => exact absurd hl (by simp [List.getLast?_eq_getLast (b :: t) (by simp)])
        | some l => rfl
    simp only [fmBatch] at hhit ⊢
    rw [if_neg hms] at hhit ⊢
    by_cases h2 : e < msg.createdTimestamp
    · rw [if_pos h2] at hhit ⊢
      rw [ih map (some msg.id) stop (fun x hx => hge x (List.mem_cons_of_mem _ hx)) hhit]
      rw [hlast]
      cases rest.getLast? <;> rfl
    · rw [if_neg h2] at hhit ⊢
      by_cases h3 : hasId map msg.id = false
      · rw [if_pos h3] at hhit ⊢
        by_cases h4 : maxN ≤ (map ++ [msg]).length
        · rw [if_pos h4] at hhit; simp at hhit
        · rw [if_neg h4] at hhit ⊢
          rw [ih (map ++ [msg]) (some msg.id) stop
            (fun x hx => hge x (List.mem_cons_of_mem _ hx)) hhit]
          rw [hlast]
          cases rest.getLast? <;> rfl
      · rw [if_neg h3] at hhit ⊢
        rw [ih map (some msg.id) stop (fun x hx => hge x (List.mem_cons_of_mem _ hx)) hhit]
        rw [hlast]
        cases rest.getLast? <;> rfl

/-- The cursor invariant of the linear walk: the processed prefix sits at or
above the cursor and the remainder strictly below it. -/
def CursorInv (c : Option Nat) (P Q : List Msg) : Prop :=
  match c with
  | none => P = []
  | some cv => (∀ x ∈ P, cv ≤ x.id) ∧ (∀ q ∈ Q, q.id < cv)

/-- Under the cursor invariant the simulated `fetchBefore` returns exactly
the head of the unprocessed remainder. -/
lemma fetchBefore_inv (store P Q : List Msg) (c : Option Nat) (hsplit : store = P ++ Q)
    (hc : CursorInv c P Q) (limit : Nat) :
    fetchBeforeStore store c limit = Q.take limit := by
  cases c with
  | none =>
    have hP : P = [] := hc
    subst hP
    simp only [List.nil_append] at hsplit
    subst hsplit
    rfl
  | some cv =>
    obtain ⟨h1, h2⟩ := hc
    show (store.filter (fun m => m.id < cv)).take limit = Q.take limit
    subst hsplit
    rw [List.filter_append]
    have hPnil : P.filter (fun m => decide (m.id < cv)) = [] := by
      rw [List.filter_eq_nil_iff]
      intro a ha
      have := h1 a ha
      simp
      omega
    have hQall : Q.filter (fun m => decide (m.id < cv)) = Q := by
      rw [List.filter_eq_self]
      intro a ha
      have := h2 a ha
      simp
      omega
    rw [hPnil, hQall, List.nil_append]

/-- Completeness of the linear walk loop: starting from any correctly
processed prefix, a run that never hits the limit ends with the map holding
exactly the in-window records of the whole store, still below the limit. -/
lemma fmLoop_complete (store : List Msg) (s e : Int) (maxN : Nat) (hwf : StoreWF store) :
    ∀ (fuel : Nat) (P Q raw : List Msg) (c : Option Nat) (stop : Option Int) (out : LinOut),
      store = P ++ Q →
      CursorInv c P Q →
      (∀ x ∈ P, s ≤ x.createdTimestamp) →
      (P.filter (inWinB s e)).length < maxN →
      fmLoop (storeChannel store) s e maxN fuel (P.filter (inWinB s e)) raw c stop = .ok out →
      out.hitLimit = false →
      out.map = store.filter (inWinB s e) ∧ out.map.length < maxN := by
  intro fuel
  induction fuel with
  | zero =>
    intro P Q raw c stop out _ _ _ _ h _
    simp [fmLoop] at h
  | succ f ih =>
    intro P Q raw c stop out hsplit hc hge hlen h hl
    simp only [fmLoop] at h
    rw [if_pos hlen] at h
    have hsc : storeChannel store (.before c 100) = .ok (Q.take 100) := by
      show Except.ok (fetchBeforeStore store c 100) = _
      rw [fetchBefore_inv store P Q c hsplit hc]
    rw [hsc] at h
    cases hbq : Q.take 100 with
    | nil =>
      rw [hbq] at h
      dsimp only at h
      have hQnil : Q = [] := by
        rcases List.take_eq_nil_iff.mp hbq with h1 | h1
        · omega
        · exact h1
      subst hQnil
      rw [List.append_nil] at hsplit
      have hout := Except.ok.inj h
      rw [← hout]
      subst hsplit
      exact ⟨rfl, hlen⟩
    | cons m0 bs =>
      rw [hbq] at h
      dsimp only at h
      have hBsub : (m0 :: bs).Sublist Q := hbq ▸ List.take_sublist 100 Q
      have hQwf : Q.Pairwise (fun a b => b.id < a.id ∧ b.createdTimestamp ≤ a.createdTimestamp) :=
        (List.pairwise_append.mp (hsplit ▸ hwf)).2.1
      have hcross : ∀ p ∈ P, ∀ q ∈ Q, q.id < p.id ∧ q.createdTimestamp ≤ p.createdTimestamp :=
        fun p hp q hq => (List.pairwise_append.mp (hsplit ▸ hwf)).2.2 p hp q hq
      have hBwf : (m0 :: bs).Pairwise
          (fun a b => b.id < a.id ∧ b.createdTimestamp ≤ a.createdTimestamp) :=
        List.Pairwise.sublist hBsub hQwf
      have hdisj : ∀ x ∈ P.filter (inWinB s e), ∀ y ∈ (m0 :: bs), x.id ≠ y.id := by
        intro x hx y hy
        have hxP : x ∈ P := (List.filter_sublist P).subset hx
        have hyQ : y ∈ Q := hBsub.subset hy
        exact fun hcon => absurd (hcross x hxP y hyQ).1 (by omega)
      by_cases hhit : (fmBatch s e maxN (m0 :: bs) (P.filter (inWinB s e)) c stop).hitLimit = true
      · rw [if_pos hhit] at h
        have hout := Except.ok.inj h
        rw [← hout] at hl
        simp at hl
      · rw [if_neg hhit] at h
        have hhitf : (fmBatch s e maxN (m0 :: bs) (P.filter (inWinB s e)) c stop).hitLimit
            = false := by
          simpa using hhit
        have hrun := fmBatch_run s e maxN (m0 :: bs) (P.filter (inWinB s e)) c stop hBwf
          hdisj hhitf
        have hQsplit : Q = (m0 :: bs) ++ Q.drop 100 := by
          rw [← hbq]
          exact (List.take_append_drop 100 Q).symm
        have hDrel : ∀ b2 ∈ (m0 :: bs), ∀ d ∈ Q.drop 100,
            d.id < b2.id ∧ d.createdTimestamp ≤ b2.createdTimestamp := by
          intro b2 hb2 d hd
          exact (List.pairwise_append.mp (hQsplit ▸ hQwf)) |>.2.2 b2 hb2 d hd
        have hlast_mem := List.getLast_mem (List.cons_ne_nil m0 bs)
        by_cases hbrk : ((m0 :: bs).getLast (List.cons_ne_nil m0 bs)).createdTimestamp < s
        · rw [if_pos hbrk] at h
          have hout := Except.ok.inj h
          have hDnil : (Q.drop 100).filter (inWinB s e) = [] := by
            rw [List.filter_eq_nil_iff]
            intro d hd
            have := (hDrel _ hlast_mem d hd).2
            simp [inWinB]
            omega
          rw [← hout]
          dsimp only
          constructor
          · rw [hrun, hsplit, hQsplit]
            rw [List.filter_append, List.filter_append, hDnil, List.append_nil]
          · rcases fmBatch_len s e maxN (m0 :: bs) (P.filter (inWinB s e)) c stop hhitf with
              h5 | h5
            · rw [hrun] at h5
              rw [hrun]
              exact h5
            · rw [hrun] at h5
              rw [hrun, h5]
              exact hlen
        · rw [if_neg hbrk] at h
          have hallge : ∀ x ∈ (m0 :: bs), s ≤ x.createdTimestamp := by
            intro x hx
            have := getLast_ts_le (m0 :: bs) hBwf (List.cons_ne_nil m0 bs) x hx
            omega
          have hcur := fmBatch_cursor s e maxN (m0 :: bs) (P.filter (inWinB s e)) c stop
            hallge hhitf
          rw [List.getLast?_eq_getLast (m0 :: bs) (List.cons_ne_nil m0 bs)] at hcur
          dsimp only at hcur
          set L := (m0 :: bs).getLast (List.cons_ne_nil m0 bs) with hL
          have hfilterP2 : (fmBatch s e maxN (m0 :: bs) (P.filter (inWinB s e)) c stop).map
              = (P ++ (m0 :: bs)).filter (inWinB s e) := by
            rw [hrun, List.filter_append]
          have hlen2 : ((P ++ (m0 :: bs)).filter (inWinB s e)).length < maxN := by
            rcases fmBatch_len s e maxN (m0 :: bs) (P.filter (inWinB s e)) c stop hhitf with
              h5 | h5
            · rw [hfilterP2] at h5; exact h5
            · rw [hfilterP2] at h5; rw [h5]; exact hlen
          have hsplit2 : store = (P ++ (m0 :: bs)) ++ Q.drop 100 := by
            rw [List.append_assoc, ← hQsplit]
            exact hsplit
          have hcinv2 : CursorInv (some L.id) (P ++ (m0 :: bs)) (Q.drop 100) := by
            constructor
            · intro x hx
              rcases List.mem_append.mp hx with h6 | h6
              · have := (hcross x h6 L (hBsub.subset hlast_mem)).1
                omega
              · exact getLast_id_le (m0 :: bs) hBwf (List.cons_ne_nil m0 bs) x h6
            · intro q hq
              exact (hDrel L hlast_mem q hq).1
          have hge2 : ∀ x ∈ P ++ (m0 :: bs), s ≤ x.createdTimestamp := by
            intro x hx
            rcases List.mem_append.mp hx with h6 | h6
            · exact hge x h6
            · exact hallge x h6
          rw [hcur, hfilterP2] at h
          exact ih (P ++ (m0 :: bs)) (Q.drop 100) (raw ++ (m0 :: bs)) (some L.id)
            (fmBatch s e maxN (m0 :: bs) (P.filter (inWinB s e)) c stop).stopTime out
            hsplit2 hcinv2 hge2 hlen2 h hl

/-- Completeness of the linear strategy: a non-truncated run returns exactly
the in-window records of the store, and the store's in-window record count
is below the limit. -/
lemma fetchMessages_complete (store : List Msg) (s e : Int) (maxN fuel : Nat) (r : LinResult)
    (hwf : StoreWF store) (hmax : 1 ≤ maxN)
    (h : fetchMessages (storeChannel store) s e maxN fuel = .ok r)
    (hl : r.hitLimit = false) :
    (∀ m, m ∈ r.sorted ↔ m ∈ store ∧ s ≤ m.createdTimestamp ∧ m.createdTimestamp ≤ e)
    ∧ (store.filter (inWinB s e)).length < maxN := by
  unfold fetchMessages at h
  cases ho : fmLoop (storeChannel store) s e maxN fuel [] [] none none with
  | error err => rw [ho] at h; simp at h
  | ok o =>
    rw [ho] at h
    dsimp only at h
    have hout := Except.ok.inj h
    have hol : o.hitLimit = false := by rw [← hout] at hl; exact hl
    have hcomp := fmLoop_complete store s e maxN hwf fuel [] store [] none none o rfl rfl
      (by intro x hx; simp at hx) (by simpa using hmax) ho hol
    refine ⟨?_, hcomp.1 ▸ hcomp.2⟩
    intro m
    have hsorted : r.sorted = tsSorted o.map := by rw [← hout]
    rw [hsorted]
    unfold tsSorted
    rw [(List.perm_insertionSort tsLE o.map).mem_iff, hcomp.1, List.mem_filter]
    simp [inWinB]

/-- The backward batch walk on a wellformed, fresh batch appends the
in-window records, provided the limit was not hit. -/
lemma backBatch_run (s e : Int) (maxN : Nat) :
    ∀ (B map raw : List Msg) (b : Nat) (stop : Option Int),
      B.Pairwise (fun a b => b.id < a.id ∧ b.createdTimestamp ≤ a.createdTimestamp) →
      (∀ x ∈ map, ∀ y ∈ B, x.id ≠ y.id) →
      (backBatch s e maxN B map raw b stop).hitLimit = false →
      (backBatch s e maxN B map raw b stop).map = map ++ B.filter (inWinB s e) := by
  intro B
  induction B with
  | nil => intro map raw b stop _ _ _; simp [backBatch]
  | cons msg rest ih =>
    intro map raw b stop hp hdis hhit
    have hpr : rest.Pairwise
        (fun a b => b.id < a.id ∧ b.createdTimestamp ≤ a.createdTimestamp) :=
      (List.pairwise_cons.mp hp).2
    simp only [backBatch] at hhit ⊢
    by_cases h1 : msg.createdTimestamp < s
    · rw [if_pos h1] at hhit ⊢
      have hfilter : (msg :: rest).filter (inWinB s e) = [] := by
        rw [List.filter_eq_nil_iff]
        intro a ha
        rcases List.mem_cons.mp ha with h2 | h2
        · subst h2; simp [inWinB]; omega
        · have := ((List.pairwise_cons.mp hp).1 a h2).2
          simp [inWinB]; omega
      rw [hfilter]
      simp
    · rw [if_neg h1] at hhit ⊢
      have hno : hasId map msg.id = false := by
        rw [hasId_eq_false_iff]
        intro x hx
        exact fun hcon => hdis x hx msg (List.mem_cons_self _ _) hcon
      by_cases h2 : msg.createdTimestamp ≤ e
      · have hcond : s ≤ msg.createdTimestamp ∧ msg.createdTimestamp ≤ e
            ∧ hasId map msg.id = false := ⟨by omega, h2, hno⟩
        rw [if_pos hcond] at hhit ⊢
        by_cases h3 : maxN ≤ (map ++ [msg]).length
        · rw [if_pos h3] at hhit; simp at hhit
        · rw [if_neg h3] at hhit ⊢
          have hdis2 : ∀ x ∈ map ++ [msg], ∀ y ∈ rest, x.id ≠ y.id := by
            intro x hx y hy
            rcases List.mem_append.mp hx with h4 | h4
            · exact hdis x h4 y (List.mem_cons_of_mem _ hy)
            · rw [List.mem_singleton] at h4
              subst h4
              exact Nat.ne_of_gt ((List.pairwise_cons.mp hp).1 y hy).1
          rw [ih (map ++ [msg]) (raw ++ [msg]) msg.id stop hpr hdis2 hhit]
          rw [List.filter_cons_of_pos (by simp [inWinB]; omega)]
          simp
      · have hcond : ¬(s ≤ msg.createdTimestamp ∧ msg.createdTimestamp ≤ e
            ∧ hasId map msg.id = false) := by
          intro hcon; exact h2 hcon.2.1
        rw [if_neg hcond] at hhit ⊢
        rw [ih map (raw ++ [msg]) msg.id stop hpr
          (fun x hx y hy => hdis x hx y (List.mem_cons_of_mem _ hy)) hhit]
        rw [List.filter_cons_of_neg (by simp [inWinB]; omega)]

/-- If the limit was not hit, the backward batch walk leaves the map
strictly below the limit or untouched. -/
lemma backBatch_len (s e : Int) (maxN : Nat) :
    ∀ (B map raw : List Msg) (b : Nat) (stop : Option Int),
      (backBatch s e maxN B map raw b stop).hitLimit = false →
      (backBatch s e maxN B map raw b stop).map.length < maxN
        ∨ (backBatch s e maxN B map raw b stop).map = map := by
  intro B
  induction B with
  | nil => intro map raw b stop _; right; simp [backBatch]
  | cons msg rest ih =>
    intro map raw b stop hhit
    simp only [backBatch] at hhit ⊢
    by_cases h1 : msg.createdTimestamp < s
    · rw [if_pos h1] at hhit ⊢; right; rfl
    · rw [if_neg h1] at hhit ⊢
      by_cases h2 : s ≤ msg.createdTimestamp ∧ msg.createdTimestamp ≤ e
          ∧ hasId map msg.id = false
      · rw [if_pos h2] at hhit ⊢
        by_cases h3 : maxN ≤ (map ++ [msg]).length
        · rw [if_pos h3] at hhit; simp at hhit
        · rw [if_neg h3] at hhit ⊢
          rcases ih (map ++ [msg]) (raw ++ [msg]) msg.id stop hhit with h5 | h5
          · exact Or.inl h5
          · left
            rw [h5]
            simpa using h3
      · rw [if_neg h2] at hhit ⊢
        exact ih map (raw ++ [msg]) msg.id stop hhit

/-- When no batch record predates the window, the backward batch walk does
not reach the start boundary and advances the cursor to the oldest batch
record. -/
lemma backBatch_cursorL (s e : Int) (maxN : Nat) :
    ∀ (B map raw : List Msg) (b : Nat) (stop : Option Int),
      (∀ x ∈ B, s ≤ x.createdTimestamp) →
      (backBatch s e maxN B map raw b stop).hitLimit = false →
      (backBatch s e maxN B map raw b stop).reachedStart = false
        ∧ (backBatch s e maxN B map raw b stop).beforeId
          = (match B.getLast? with | none => b | some l => l.id) := by
  intro B
  induction B with
  | nil => intro map raw b stop _ _; exact ⟨by simp [backBatch], by simp [backBatch]⟩
  | cons msg rest ih =>
    intro map raw b stop hge hhit
    have hms : ¬ msg.createdTimestamp < s := by
      have := hge msg (List.mem_cons_self _ _)
      omega
    have hlast : ∀ z : Nat, (match (msg :: rest).getLast? with | none => z | some l => l.id)
        = (match rest.getLast? with | none => msg.id | some l => l.id) := by
      intro z
      cases rest with
      | nil => rfl
      | cons c t =>
        rw [List.getLast?_cons_cons]
        cases hl : (c :: t).getLast? with
        | none => exact absurd hl (by simp [List.getLast?_eq_getLast (c :: t) (by simp)])
        | some l => rfl
    simp only [backBatch] at hhit ⊢
    rw [if_neg hms] at hhit ⊢
    by_cases h2 : s ≤ msg.createdTimestamp ∧ msg.createdTimestamp ≤ e
        ∧ hasId map msg.id = false
    · rw [if_pos h2] at hhit ⊢
      by_cases h3 : maxN ≤ (map ++ [msg]).length
      · rw [if_pos h3] at hhit; simp at hhit
      · rw [if_neg h3] at hhit ⊢
        have := ih (map ++ [msg]) (raw ++ [msg]) msg.id stop
          (fun x hx => hge x (List.mem_cons_of_mem _ hx)) hhit
        rw [hlast b]
        exact this
    · rw [if_neg h2] at hhit ⊢
      have := ih map (raw ++ [msg]) msg.id stop
        (fun x hx => hge x (List.mem_cons_of_mem _ hx)) hhit
      rw [hlast b]
      exact this

/-- If some batch record predates the window and the limit was not hit, the
backward batch walk reaches the start boundary. -/
lemma backBatch_start (s e : Int) (maxN : Nat) :
    ∀ (B map raw : List Msg) (b : Nat) (stop : Option Int),
      (∃ x ∈ B, x.createdTimestamp < s) →
      (backBatch s e maxN B map raw b stop).hitLimit = false →
      (backBatch s e maxN B map raw b stop).reachedStart = true := by
  intro B
  induction B with
  | nil => intro map raw b stop hx _; simp at hx
  | cons msg rest ih =>
    intro map raw b stop hx hhit
    simp only [backBatch] at hhit ⊢
    by_cases h1 : msg.createdTimestamp < s
    · rw [if_pos h1] at hhit ⊢
    · rw [if_neg h1] at hhit ⊢
      obtain ⟨x, hxm, hxs⟩ := hx
      have hxr : x ∈ rest := by
        rcases List.mem_cons.mp hxm with h2 | h2
        · subst h2; omega
        · exact h2
      by_cases h2 : s ≤ msg.createdTimestamp ∧ msg.createdTimestamp ≤ e
          ∧ hasId map msg.id = false
      · rw [if_pos h2] at hhit ⊢
        by_cases h3 : maxN ≤ (map ++ [msg]).length
        · rw [if_pos h3] at hhit; simp at hhit
        · rw [if_neg h3] at hhit ⊢
          exact ih (map ++ [msg]) (raw ++ [msg]) msg.id stop ⟨x, hxr, hxs⟩ hhit
      · rw [if_neg h2] at hhit ⊢
        exact ih map (raw ++ [msg]) msg.id stop ⟨x, hxr, hxs⟩ hhit

/-- Completeness of the backward phase of the expansion: a run that never
hits the limit ends with the map holding the anchor followed by exactly the
in-window records older than the anchor. -/
lemma backLoop_complete (store Hi Lo : List Msg) (anchor : Msg) (s e : Int) (maxN : Nat)
    (hwf : StoreWF store) (hstore : store = Hi ++ anchor :: Lo)
    (ha : s ≤ anchor.createdTimestamp ∧ anchor.createdTimestamp ≤ e)
    (hn : (store.filter (inWinB s e)).length < maxN) :
    ∀ (fuel : Nat) (P Q raw : List Msg) (b : Nat) (stop : Option Int) (calls : Nat)
      (out : LoopOut),
      Lo = P ++ Q →
      (∀ x ∈ Hi ++ anchor :: P, b ≤ x.id) →
      (∀ q ∈ Q, q.id < b) →
      (∀ x ∈ P, s ≤ x.createdTimestamp) →
      backLoop (storeChannel store) s e maxN fuel (anchor :: P.filter (inWinB s e)) raw b
        stop calls = .ok out →
      out.hitLimit = false →
      out.map = anchor :: Lo.filter (inWinB s e) := by
  have hfstore : store.filter (inWinB s e)
      = Hi.filter (inWinB s e) ++ anchor :: Lo.filter (inWinB s e) := by
    rw [hstore, List.filter_append, List.filter_cons_of_pos (by simp [inWinB]; omega)]
  intro fuel
  induction fuel with
  | zero =>
    intro P Q raw b stop calls out _ _ _ _ h _
    simp [backLoop] at h
  | succ f ih =>
    intro P Q raw b stop calls out hLo hup hdown hge h hl
    have hsubl : (anchor :: P.filter (inWinB s e)).Sublist (store.filter (inWinB s e)) := by
      rw [hfstore]
      refine List.Sublist.trans ?_ (List.sublist_append_right _ _)
      refine List.Sublist.cons₂ anchor ?_
      rw [hLo, List.filter_append]
      exact List.sublist_append_left _ _
    have hlen : (anchor :: P.filter (inWinB s e)).length < maxN :=
      lt_of_le_of_lt hsubl.length_le hn
    have hsplitF : store = (Hi ++ anchor :: P) ++ Q := by
      rw [hstore, hLo]
      simp [List.append_assoc]
    simp only [backLoop] at h
    rw [if_pos hlen] at h
    have hsc : storeChannel store (.before (some b) 100) = .ok (Q.take 100) := by
      show Except.ok (fetchBeforeStore store (some b) 100) = _
      rw [fetchBefore_inv store (Hi ++ anchor :: P) Q (some b) hsplitF ⟨hup, hdown⟩]
    rw [hsc] at h
    cases hbq : Q.take 100 with
    | nil =>
      rw [hbq] at h
      dsimp only at h
      have hQnil : Q = [] := by
        rcases List.take_eq_nil_iff.mp hbq with h1 | h1
        · omega
        · exact h1
      subst hQnil
      rw [List.append_nil] at hLo
      have hout := Except.ok.inj h
      rw [← hout]
      rw [hLo]
    | cons m0 bs =>
      rw [hbq] at h
      dsimp only at h
      have hBsub : (m0 :: bs).Sublist Q := hbq ▸ List.take_sublist 100 Q
      have hQwf : Q.Pairwise (fun a b => b.id < a.id ∧ b.createdTimestamp ≤ a.createdTimestamp) :=
        (List.pairwise_append.mp (hsplitF ▸ hwf)).2.1
      have hcross : ∀ p ∈ Hi ++ anchor :: P, ∀ q ∈ Q,
          q.id < p.id ∧ q.createdTimestamp ≤ p.createdTimestamp :=
        fun p hp q hq => (List.pairwise_append.mp (hsplitF ▸ hwf)).2.2 p hp q hq
      have hBwf : (m0 :: bs).Pairwise
          (fun a b => b.id < a.id ∧ b.createdTimestamp ≤ a.createdTimestamp) :=
        List.Pairwise.sublist hBsub hQwf
      have hdisj : ∀ x ∈ anchor :: P.filter (inWinB s e), ∀ y ∈ (m0 :: bs), x.id ≠ y.id := by
        intro x hx y hy
        have hyQ : y ∈ Q := hBsub.subset hy
        have hxP : x ∈ Hi ++ anchor :: P := by
          rcases List.mem_cons.mp hx with h2 | h2
          · subst h2
            exact List.mem_append.mpr (Or.inr (List.mem_cons_self _ _))
          · have := (List.filter_sublist P).subset h2
            exact List.mem_append.mpr (Or.inr (List.mem_cons_of_mem _ this))
        exact fun hcon => absurd (hcross x hxP y hyQ).1 (by omega)
      have hQsplit : Q = (m0 :: bs) ++ Q.drop 100 := by
        rw [← hbq]
        exact (List.take_append_drop 100 Q).symm
      have hDrel : ∀ b2 ∈ (m0 :: bs), ∀ d ∈ Q.drop 100,
          d.id < b2.id ∧ d.createdTimestamp ≤ b2.createdTimestamp := by
        intro b2 hb2 d hd
        exact (List.pairwise_append.mp (hQsplit ▸ hQwf)) |>.2.2 b2 hb2 d hd
      have hlast_mem := List.getLast_mem (List.cons_ne_nil m0 bs)
      by_cases hhit : (backBatch s e maxN (m0 :: bs) (anchor :: P.filter (inWinB s e)) raw b
          stop).hitLimit = true
      · rw [if_pos hhit] at h
        have hout := Except.ok.inj h
        rw [← hout] at hl
        simp at hl
      · rw [if_neg hhit] at h
        have hhitf : (backBatch s e maxN (m0 :: bs) (anchor :: P.filter (inWinB s e)) raw b
            stop).hitLimit = false := by simpa using hhit
        have hrun := backBatch_run s e maxN (m0 :: bs) (anchor :: P.filter (inWinB s e)) raw b
          stop hBwf hdisj hhitf
        by_cases hrs : (backBatch s e maxN (m0 :: bs) (anchor :: P.filter (inWinB s e)) raw b
            stop).reachedStart = true
        · rw [if_pos hrs] at h
          have hout := Except.ok.inj h
          by_cases hallge : ∀ x ∈ (m0 :: bs), s ≤ x.createdTimestamp
          · have := (backBatch_cursorL s e maxN (m0 :: bs) (anchor :: P.filter (inWinB s e))
              raw b stop hallge hhitf).1
            rw [this] at hrs
            simp at hrs
          · push_neg at hallge
            obtain ⟨x0, hx0, hlow⟩ := hallge
            have hDnil : (Q.drop 100).filter (inWinB s e) = [] := by
              rw [List.filter_eq_nil_iff]
              intro d hd
              have := (hDrel x0 hx0 d hd).2
              simp [inWinB]
              omega
            rw [← hout]
            dsimp only
            rw [hrun, hLo, hQsplit]
            rw [List.filter_append, List.filter_append, hDnil, List.append_nil]
            rw [List.cons_append]
        · rw [if_neg hrs] at h
          have hallge : ∀ x ∈ (m0 :: bs), s ≤ x.createdTimestamp := by
            by_contra hcon
            push_neg at hcon
            obtain ⟨x0, hx0, hlow⟩ := hcon
            have := backBatch_start s e maxN (m0 :: bs) (anchor :: P.filter (inWinB s e)) raw b
              stop ⟨x0, hx0, hlow⟩ hhitf
            exact hrs this
          have hcurs := backBatch_cursorL s e maxN (m0 :: bs) (anchor :: P.filter (inWinB s e))
            raw b stop hallge hhitf
          rw [List.getLast?_eq_getLast (m0 :: bs) (List.cons_ne_nil m0 bs)] at hcurs
          have hcur := hcurs.2
          dsimp only at hcur
          set L := (m0 :: bs).getLast (List.cons_ne_nil m0 bs) with hL
          have hmap2 : (backBatch s e maxN (m0 :: bs) (anchor :: P.filter (inWinB s e)) raw b
              stop).map = anchor :: (P ++ (m0 :: bs)).filter (inWinB s e) := by
            rw [hrun, List.filter_append, List.cons_append]
          have hLo2 : Lo = (P ++ (m0 :: bs)) ++ Q.drop 100 := by
            rw [List.append_assoc, ← hQsplit]
            exact hLo
          have hup2 : ∀ x ∈ Hi ++ anchor :: (P ++ (m0 :: bs)), L.id ≤ x.id := by
            intro x hx
            rcases List.mem_append.mp hx with h6 | h6
            · have := (hcross x (List.mem_append.mpr (Or.inl h6)) L (hBsub.subset hlast_mem)).1
              omega
            · rcases List.mem_cons.mp h6 with h7 | h7
              · subst h7
                have := (hcross x (List.mem_append.mpr (Or.inr (List.mem_cons_self _ _))) L
                  (hBsub.subset hlast_mem)).1
                omega
              · rcases List.mem_append.mp h7 with h8 | h8
                · have := (hcross x (List.mem_append.mpr (Or.inr (List.mem_cons_of_mem _ h8))) L
                    (hBsub.subset hlast_mem)).1
                  omega
                · exact getLast_id_le (m0 :: bs) hBwf (List.cons_ne_nil m0 bs) x h8
          have hdown2 : ∀ q ∈ Q.drop 100, q.id < L.id := by
            intro q hq
            exact (hDrel L hlast_mem q hq).1
          have hge2 : ∀ x ∈ P ++ (m0 :: bs), s ≤ x.createdTimestamp := by
            intro x hx
            rcases List.mem_append.mp hx with h6 | h6
            · exact hge x h6
            · exact hallge x h6
          rw [hcur, hmap2] at h
          exact ih (P ++ (m0 :: bs)) (Q.drop 100) _ L.id _ _ out hLo2 hup2 hdown2 hge2 h hl

/-- The forward batch walk on a wellformed, fresh batch appends the
in-window records, provided the limit was not hit. -/
lemma fwdBatch_run (s e : Int) (maxN : Nat) :
    ∀ (B map raw : List Msg) (stop : Option Int) (re ab : Bool),
      (∀ x ∈ map, ∀ y ∈ B, x.id ≠ y.id) →
      B.Pairwise (fun a b => b.id < a.id ∧ b.createdTimestamp ≤ a.createdTimestamp) →
      (fwdBatch s e maxN B map raw stop re ab).hitLimit = false →
      (fwdBatch s e maxN B map raw stop re ab).map = map ++ B.filter (inWinB s e) := by
  intro B
  induction B with
  | nil => intro map raw stop re ab _ _ _; simp [fwdBatch]
  | cons msg rest ih =>
    intro map raw stop re ab hdis hp hhit
    have hpr : rest.Pairwise
        (fun a b => b.id < a.id ∧ b.createdTimestamp ≤ a.createdTimestamp) :=
      (List.pairwise_cons.mp hp).2
    simp only [fwdBatch] at hhit ⊢
    by_cases h1 : s ≤ msg.createdTimestamp ∧ msg.createdTimestamp ≤ e
    · rw [if_pos h1] at hhit ⊢
      have hno : hasId map msg.id = false := by
        rw [hasId_eq_false_iff]
        intro x hx
        exact fun hcon => hdis x hx msg (List.mem_cons_self _ _) hcon
      rw [if_pos hno] at hhit ⊢
      by_cases h3 : maxN ≤ (map ++ [msg]).length
      · rw [if_pos h3] at hhit; simp at hhit
      · rw [if_neg h3] at hhit ⊢
        have hdis2 : ∀ x ∈ map ++ [msg], ∀ y ∈ rest, x.id ≠ y.id := by
          intro x hx y hy
          rcases List.mem_append.mp hx with h4 | h4
          · exact hdis x h4 y (List.mem_cons_of_mem _ hy)
          · rw [List.mem_singleton] at h4
            subst h4
            exact Nat.ne_of_gt ((List.pairwise_cons.mp hp).1 y hy).1
        rw [ih (map ++ [msg]) (raw ++ [msg]) stop re false hdis2 hpr hhit]
        rw [List.filter_cons_of_pos (by simp [inWinB]; omega)]
        simp
    · rw [if_neg h1] at hhit ⊢
      have hfilter : (msg :: rest).filter (inWinB s e) = rest.filter (inWinB s e) := by
        rw [List.filter_cons_of_neg (by simp [inWinB]; omega)]
      by_cases h2 : e < msg.createdTimestamp
      · rw [if_pos h2] at hhit ⊢
        by_cases h4 : re = true
        · rw [if_pos h4] at hhit ⊢
          rw [hfilter]
          exact ih map (raw ++ [msg]) stop re ab
            (fun x hx y hy => hdis x hx y (List.mem_cons_of_mem _ hy)) hpr hhit
        · rw [if_neg h4] at hhit ⊢
          rw [hfilter]
          exact ih map (raw ++ [msg]) _ true ab
            (fun x hx y hy => hdis x hx y (List.mem_cons_of_mem _ hy)) hpr hhit
      · rw [if_neg h2] at hhit ⊢
        rw [hfilter]
        exact ih map (raw ++ [msg]) stop re false
          (fun x hx y hy => hdis x hx y (List.mem_cons_of_mem _ hy)) hpr hhit

/-- If the whole-batch-beyond flag survives the forward batch walk, the flag
was set on entry and every batch record lies beyond the end boundary. -/
lemma fwdBatch_allBeyond (s e : Int) (maxN : Nat) :
    ∀ (B map raw : List Msg) (stop : Option Int) (re ab : Bool),
      (fwdBatch s e maxN B map raw stop re ab).allBeyond = true →
      ab = true ∧ ∀ x ∈ B, e < x.createdTimestamp := by
  intro B
  induction B with
  | nil =>
    intro map raw stop re ab hab
    simp only [fwdBatch] at hab
    exact ⟨hab, by simp⟩
  | cons msg rest ih =>
    intro map raw stop re ab hab
    simp only [fwdBatch] at hab
    by_cases h1 : s ≤ msg.createdTimestamp ∧ msg.createdTimestamp ≤ e
    · rw [if_pos h1] at hab
      by_cases h2 : hasId map msg.id = false
      · rw [if_pos h2] at hab
        by_cases h3 : maxN ≤ (map ++ [msg]).length
        · rw [if_pos h3] at hab; simp at hab
        · rw [if_neg h3] at hab
          exact absurd (ih _ _ _ _ _ hab).1 (by simp)
      · rw [if_neg h2] at hab
        exact absurd (ih _ _ _ _ _ hab).1 (by simp)
    · rw [if_neg h1] at hab
      by_cases h2 : e < msg.createdTimestamp
      · rw [if_pos h2] at hab
        by_cases h4 : re = true
        · rw [if_pos h4] at hab
          have := ih _ _ _ _ _ hab
          refine ⟨this.1, ?_⟩
          intro x hx
          rcases List.mem_cons.mp hx with h5 | h5
          · subst h5; exact h2
          · exact this.2 x h5
        · rw [if_neg h4] at hab
          have := ih _ _ _ _ _ hab
          refine ⟨this.1, ?_⟩
          intro x hx
          rcases List.mem_cons.mp hx with h5 | h5
          · subst h5; exact h2
          · exact this.2 x h5
      · rw [if_neg h2] at hab
        exact absurd (ih _ _ _ _ _ hab).1 (by simp)

/-- Completeness of the forward phase of the expansion: starting from a map
holding the anchor, the older in-window records, and the already-fetched
newer in-window records, a run that never hits the limit ends with the map
holding the anchor and every in-window record of the store. -/
lemma fwdLoop_complete (store Hi Lo : List Msg) (anchor : Msg) (s e : Int) (maxN : Nat)
    (hwf : StoreWF store) (hstore : store = Hi ++ anchor :: Lo)
    (ha : s ≤ anchor.createdTimestamp ∧ anchor.createdTimestamp ≤ e)
    (hn : (store.filter (inWinB s e)).length < maxN) :
    ∀ (fuel : Nat) (R S map raw : List Msg) (a : Nat) (stop : Option Int) (re : Bool)
      (calls : Nat) (out : LoopOut),
      Hi = R ++ S →
      (∀ x ∈ R, a < x.id) →
      (∀ y ∈ S, y.id ≤ a) →
      anchor.id ≤ a →
      MapInv s e map →
      (∀ m, m ∈ map ↔ m = anchor ∨ (m ∈ Lo ∧ inWinB s e m = true)
        ∨ (m ∈ S ∧ inWinB s e m = true)) →
      fwdLoop (storeChannel store) s e maxN fuel map raw a stop false re calls = .ok out →
      out.hitLimit = false →
      ∀ m, m ∈ out.map ↔ m = anchor ∨ (m ∈ Lo ∧ inWinB s e m = true)
        ∨ (m ∈ Hi ∧ inWinB s e m = true) := by
  have hwf1 : (Hi ++ anchor :: Lo).Pairwise
      (fun a b => b.id < a.id ∧ b.createdTimestamp ≤ a.createdTimestamp) := by
    have := hwf; rw [hstore] at this; exact this
  have hLoLess : ∀ y ∈ Lo, y.id < anchor.id := fun y hy =>
    ((List.pairwise_cons.mp (List.pairwise_append.mp hwf1).2.1).1 y hy).1
  intro fuel
  induction fuel with
  | zero =>
    intro R S map raw a stop re calls out _ _ _ _ _ _ h _
    simp [fwdLoop] at h
  | succ f ih =>
    intro R S map raw a stop re calls out hsplit hR hS haA hinv hmem h hl
    have hsubm : map ⊆ store.filter (inWinB s e) := by
      intro m hm
      rcases (hmem m).mp hm with h3 | h3 | h3
      · subst h3
        refine List.mem_filter.mpr ⟨?_, ?_⟩
        · rw [hstore]; exact List.mem_append.mpr (Or.inr (List.mem_cons_self _ _))
        · simp only [inWinB, decide_eq_true_eq]; exact ha
      · refine List.mem_filter.mpr ⟨?_, h3.2⟩
        rw [hstore]; exact List.mem_append.mpr (Or.inr (List.mem_cons_of_mem _ h3.1))
      · refine List.mem_filter.mpr ⟨?_, h3.2⟩
        rw [hstore]
        refine List.mem_append.mpr (Or.inl ?_)
        rw [hsplit]; exact List.mem_append.mpr (Or.inr h3.1)
    have hnd : map.Nodup :=
      List.Pairwise.imp (fun h3 h4 => h3 (congrArg Msg.id h4)) hinv.1
    have hlenm : map.length < maxN :=
      lt_of_le_of_lt (List.Subperm.length_le (hnd.subperm hsubm)) hn
    simp only [fwdLoop] at h
    rw [if_pos ⟨hlenm, True.intro⟩] at h
    have hfil : store.filter (fun m => a < m.id) = R := by
      rw [hstore, hsplit, List.append_assoc, List.filter_append]
      have h1 : R.filter (fun m => decide (a < m.id)) = R :=
        List.filter_eq_self.mpr (fun x hx => by simpa using hR x hx)
      have h2 : (S ++ anchor :: Lo).filter (fun m => decide (a < m.id)) = [] := by
        rw [List.filter_eq_nil_iff]
        intro x hx
        simp only [decide_eq_true_eq, not_lt]
        rcases List.mem_append.mp hx with h3 | h3
        · exact le_trans (hS x h3) (le_refl a)
        · rcases List.mem_cons.mp h3 with h4 | h4
          · subst h4; exact haA
          · have := hLoLess x h4; omega
      rw [h1, h2, List.append_nil]
    have hsc : storeChannel store (.after a 100) = .ok (R.drop (R.length - 100)) := by
      show Except.ok (fetchAfterStore store a 100) = _
      unfold fetchAfterStore
      rw [hfil, List.take_reverse, List.reverse_reverse]
    rw [hsc] at h
    cases hbq : R.drop (R.length - 100) with
    | nil =>
      rw [hbq] at h
      dsimp only at h
      have hout := Except.ok.inj h
      have hR0 : R = [] := by
        have hlen : R.length - (R.length - 100) = 0 := by
          have := congrArg List.length hbq
          simpa [List.length_drop] using this
        have : R.length = 0 := by omega
        exact List.length_eq_zero.mp this
      rw [hR0, List.nil_append] at hsplit
      intro m
      rw [← hout]
      dsimp only
      rw [hsplit]
      exact hmem m
    | cons m0 bs =>
      rw [hbq] at h
      dsimp only at h
      have hRsplit : R = R.take (R.length - 100) ++ (m0 :: bs) := by
        rw [← hbq]; exact (List.take_append_drop _ R).symm
      have hwf2 : ((R ++ S) ++ anchor :: Lo).Pairwise
          (fun a b => b.id < a.id ∧ b.createdTimestamp ≤ a.createdTimestamp) := by
        have := hwf1; rw [hsplit] at this; exact this
      have hRwf : R.Pairwise
          (fun a b => b.id < a.id ∧ b.createdTimestamp ≤ a.createdTimestamp) :=
        (List.pairwise_append.mp (List.pairwise_append.mp hwf2).1).1
      have hPW : (R.take (R.length - 100) ++ (m0 :: bs)).Pairwise
          (fun a b => b.id < a.id ∧ b.createdTimestamp ≤ a.createdTimestamp) :=
        hRsplit ▸ hRwf
      have hBwf := (List.pairwise_append.mp hPW).2.1
      have hcross := (List.pairwise_append.mp hPW).2.2
      have hBinR : ∀ y ∈ m0 :: bs, y ∈ R := fun y hy => by
        rw [hRsplit]; exact List.mem_append.mpr (Or.inr hy)
      have ham0 : a < m0.id := hR m0 (hBinR m0 (List.mem_cons_self _ _))
      have hdis : ∀ x ∈ map, ∀ y ∈ m0 :: bs, x.id ≠ y.id := by
        intro x hx y hy
        have hyR : a < y.id := hR y (hBinR y hy)
        have hxa : x.id ≤ a := by
          rcases (hmem x).mp hx with h3 | h3 | h3
          · subst h3; exact haA
          · have := hLoLess x h3.1; omega
          · exact hS x h3.1
        omega
      by_cases hhit : (fwdBatch s e maxN (m0 :: bs) map raw stop re true).hitLimit = true
      · rw [if_pos hhit] at h
        have hout := Except.ok.inj h
        rw [← hout] at hl
        simp at hl
      · rw [if_neg hhit] at h
        have hhitf : (fwdBatch s e maxN (m0 :: bs) map raw stop re true).hitLimit = false := by
          simpa using hhit
        have hrun := fwdBatch_run s e maxN (m0 :: bs) map raw stop re true hdis hBwf hhitf
        by_cases hab : (fwdBatch s e maxN (m0 :: bs) map raw stop re true).allBeyond = true
            ∧ (fwdBatch s e maxN (m0 :: bs) map raw stop re true).reachedEnd = true
        · rw [if_pos hab] at h
          have hout := Except.ok.inj h
          have hbey := (fwdBatch_allBeyond s e maxN (m0 :: bs) map raw stop re true hab.1).2
          have hfB : (m0 :: bs).filter (inWinB s e) = [] := by
            rw [List.filter_eq_nil_iff]
            intro x hx
            have := hbey x hx
            simp [inWinB]
            omega
          intro m
          rw [← hout]
          dsimp only
          rw [hrun, hfB, List.append_nil, hmem m]
          constructor
          · rintro (h3 | h3 | h3)
            · exact Or.inl h3
            · exact Or.inr (Or.inl h3)
            · refine Or.inr (Or.inr ⟨?_, h3.2⟩)
              rw [hsplit]; exact List.mem_append.mpr (Or.inr h3.1)
          · rintro (h3 | h3 | h3)
            · exact Or.inl h3
            · exact Or.inr (Or.inl h3)
            · have hmHi := h3.1
              rw [hsplit, hRsplit] at hmHi
              have hwin : s ≤ m.createdTimestamp ∧ m.createdTimestamp ≤ e := by
                have := h3.2; simp [inWinB] at this; exact this
              rcases List.mem_append.mp hmHi with h4 | h4
              · rcases List.mem_append.mp h4 with h5 | h5
                · have hc := (hcross m h5 m0 (List.mem_cons_self _ _)).2
                  have := hbey m0 (List.mem_cons_self _ _)
                  exact absurd hwin.2 (by omega)
                · have := hbey m h5
                  exact absurd hwin.2 (by omega)
              · exact Or.inr (Or.inr ⟨h4, h3.2⟩)
        · rw [if_neg hab] at h
          have hsplit2 : Hi = R.take (R.length - 100) ++ ((m0 :: bs) ++ S) := by
            rw [hsplit]
            conv_lhs => rw [hRsplit]
            rw [List.append_assoc]
          have hR2 : ∀ x ∈ R.take (R.length - 100), m0.id < x.id :=
            fun x hx => (hcross x hx m0 (List.mem_cons_self _ _)).1
          have hS2 : ∀ y ∈ (m0 :: bs) ++ S, y.id ≤ m0.id := by
            intro y hy
            rcases List.mem_append.mp hy with h3 | h3
            · rcases List.mem_cons.mp h3 with h4 | h4
              · subst h4; exact le_refl _
              · exact Nat.le_of_lt ((List.pairwise_cons.mp hBwf).1 y h4).1
            · have := hS y h3; omega
          have haA2 : anchor.id ≤ m0.id := by omega
          have hinv2 : MapInv s e (fwdBatch s e maxN (m0 :: bs) map raw stop re true).map :=
            fwdBatch_inv s e maxN (m0 :: bs) map raw stop re true hinv
          have hmem2 : ∀ m, m ∈ (fwdBatch s e maxN (m0 :: bs) map raw stop re true).map ↔
              m = anchor ∨ (m ∈ Lo ∧ inWinB s e m = true)
                ∨ (m ∈ (m0 :: bs) ++ S ∧ inWinB s e m = true) := by
            intro m
            rw [hrun, List.mem_append, hmem m, List.mem_filter]
            constructor
            · rintro ((h3 | h3 | h3) | h3)
              · exact Or.inl h3
              · exact Or.inr (Or.inl h3)
              · exact Or.inr (Or.inr ⟨List.mem_append.mpr (Or.inr h3.1), h3.2⟩)
              · exact Or.inr (Or.inr ⟨List.mem_append.mpr (Or.inl h3.1), h3.2⟩)
            · rintro (h3 | h3 | h3)
              · exact Or.inl (Or.inl h3)
              · exact Or.inl (Or.inr (Or.inl h3))
              · rcases List.mem_append.mp h3.1 with h4 | h4
                · exact Or.inr ⟨h4, h3.2⟩
                · exact Or.inl (Or.inr (Or.inr ⟨h4, h3.2⟩))
          exact ih (R.take (R.length - 100)) ((m0 :: bs) ++ S) _ _ m0.id _ _ _ out
            hsplit2 hR2 hS2 haA2 hinv2 hmem2 h hl

/-- A limit flag raised before the forward loop starts survives to the
output, so a non-truncated output means the loop started untruncated. -/
lemma fwdLoop_hit_entry (ch : Channel) (s e : Int) (maxN : Nat)
    (fuel : Nat) (map raw : List Msg) (a : Nat) (stop : Option Int) (hit re : Bool)
    (calls : Nat) (out : LoopOut)
    (h : fwdLoop ch s e maxN fuel map raw a stop hit re calls = .ok out)
    (hl : out.hitLimit = false) : hit = false := by
  cases hit with
  | false => rfl
  | true =>
    cases fuel with
    | zero => simp [fwdLoop] at h
    | succ f =>
      simp only [fwdLoop] at h
      rw [if_neg (by simp)] at h
      have hout := Except.ok.inj h
      rw [← hout] at hl
      simp at hl

/-- Completeness of the bidirectional expansion: when the anchor lies in the
window and the store's in-window record count is below the limit, a
non-truncated run returns exactly the in-window records of the store. -/
lemma expand_complete (store Hi Lo : List Msg) (anchor : Msg) (s e : Int)
    (maxN fuel : Nat) (r : ExpResult)
    (hwf : StoreWF store) (hstore : store = Hi ++ anchor :: Lo)
    (ha : s ≤ anchor.createdTimestamp ∧ anchor.createdTimestamp ≤ e)
    (hn : (store.filter (inWinB s e)).length < maxN)
    (h : expandFromAnchor (storeChannel store) (some anchor) s e maxN fuel = .ok r)
    (hl : r.hitLimit = false) :
    ∀ m, m ∈ r.sorted ↔ m ∈ store ∧ s ≤ m.createdTimestamp ∧ m.createdTimestamp ≤ e := by
  have hwf1 : (Hi ++ anchor :: Lo).Pairwise
      (fun a b => b.id < a.id ∧ b.createdTimestamp ≤ a.createdTimestamp) := by
    have := hwf; rw [hstore] at this; exact this
  have hLoLess : ∀ y ∈ Lo, y.id < anchor.id := fun y hy =>
    ((List.pairwise_cons.mp (List.pairwise_append.mp hwf1).2.1).1 y hy).1
  have hHiGt : ∀ x ∈ Hi, anchor.id < x.id := fun x hx =>
    ((List.pairwise_append.mp hwf1).2.2 x hx anchor (List.mem_cons_self _ _)).1
  simp only [expandFromAnchor] at h
  rw [if_pos ha] at h
  cases hb : backLoop (storeChannel store) s e maxN fuel [anchor] [anchor] anchor.id none 0 with
  | error err => rw [hb] at h; simp at h
  | ok back =>
    rw [hb] at h
    dsimp only at h
    cases hf : fwdLoop (storeChannel store) s e maxN fuel back.map back.raw anchor.id
        back.stopTime back.hitLimit false back.apiCalls with
    | error err => rw [hf] at h; simp at h
    | ok fwd =>
      rw [hf] at h
      dsimp only at h
      have hout := Except.ok.inj h
      have hfl : fwd.hitLimit = false := by
        rw [← hout] at hl; exact hl
      have hbl : back.hitLimit = false :=
        fwdLoop_hit_entry (storeChannel store) s e maxN fuel back.map back.raw anchor.id
          back.stopTime back.hitLimit false back.apiCalls fwd hf hfl
      have hb2 : backLoop (storeChannel store) s e maxN fuel
          (anchor :: List.filter (inWinB s e) []) [anchor] anchor.id none 0 = .ok back := hb
      have hbc := backLoop_complete store Hi Lo anchor s e maxN hwf hstore ha hn fuel
        [] Lo [anchor] anchor.id none 0 back (List.nil_append Lo).symm
        (by
          intro x hx
          rcases List.mem_append.mp hx with h3 | h3
          · exact Nat.le_of_lt (hHiGt x h3)
          · rcases List.mem_cons.mp h3 with h4 | h4
            · subst h4; exact le_refl _
            · simp at h4)
        (fun q hq => hLoLess q hq)
        (by intro x hx; simp at hx)
        hb2 hbl
      have hinvb : MapInv s e back.map := by
        refine backLoop_inv (storeChannel store) s e maxN fuel [anchor] [anchor] anchor.id
          none 0 back ⟨List.pairwise_singleton _ _, ?_⟩ hb
        intro m hm
        rw [List.mem_singleton] at hm
        subst hm
        exact ha
      have hmemb : ∀ m, m ∈ back.map ↔ m = anchor ∨ (m ∈ Lo ∧ inWinB s e m = true)
          ∨ (m ∈ ([] : List Msg) ∧ inWinB s e m = true) := by
        intro m
        rw [hbc]
        simp only [List.mem_cons, List.mem_filter, List.not_mem_nil, false_and, or_false]
      have hf2 : fwdLoop (storeChannel store) s e maxN fuel back.map back.raw anchor.id
          back.stopTime false false back.apiCalls = .ok fwd := by
        rw [hbl] at hf; exact hf
      have hfc := fwdLoop_complete store Hi Lo anchor s e maxN hwf hstore ha hn fuel
        Hi [] back.map back.raw anchor.id back.stopTime false back.apiCalls fwd
        (List.append_nil Hi).symm
        (fun x hx => hHiGt x hx)
        (by intro y hy; simp at hy)
        (le_refl _)
        hinvb hmemb hf2 hfl
      intro m
      have hsorted : r.sorted = tsSorted fwd.map := by rw [← hout]
      rw [hsorted]
      unfold tsSorted
      rw [(List.perm_insertionSort tsLE fwd.map).mem_iff, hfc m]
      constructor
      · rintro (h3 | h3 | h3)
        · subst h3
          refine ⟨?_, ha⟩
          rw [hstore]; exact List.mem_append.mpr (Or.inr (List.mem_cons_self _ _))
        · have hwin : s ≤ m.createdTimestamp ∧ m.createdTimestamp ≤ e := by
            have := h3.2; simp [inWinB] at this; exact this
          refine ⟨?_, hwin⟩
          rw [hstore]; exact List.mem_append.mpr (Or.inr (List.mem_cons_of_mem _ h3.1))
        · have hwin : s ≤ m.createdTimestamp ∧ m.createdTimestamp ≤ e := by
            have := h3.2; simp [inWinB] at this; exact this
          refine ⟨?_, hwin⟩
          rw [hstore]; exact List.mem_append.mpr (Or.inl h3.1)
      · rintro ⟨hmem, hwin⟩
        have hwinb : inWinB s e m = true := by
          simp only [inWinB, decide_eq_true_eq]; exact hwin
        rw [hstore] at hmem
        rcases List.mem_append.mp hmem with h3 | h3
        · exact Or.inr (Or.inr ⟨h3, hwinb⟩)
        · rcases List.mem_cons.mp h3 with h4 | h4
          · exact Or.inl h4
          · exact Or.inr (Or.inl ⟨h4, hwinb⟩)

/-- C2: for every wellformed simulated store, window containing the anchor,
and limit at least 1 that truncates neither strategy (both hitLimit flags
false), the linear `fetchMessages` walk and the bidirectional
`expandFromAnchor` walk return the same set of record ids. -/
theorem C2_linear_expand_same_ids (store Hi Lo : List Msg) (anchor : Msg) (s e : Int)
    (maxN fuel1 fuel2 : Nat) (r1 : LinResult) (r2 : ExpResult)
    (hwf : StoreWF store) (hstore : store = Hi ++ anchor :: Lo)
    (hmax : 1 ≤ maxN)
    (ha : s ≤ anchor.createdTimestamp ∧ anchor.createdTimestamp ≤ e)
    (h1 : fetchMessages (storeChannel store) s e maxN fuel1 = .ok r1)
    (h2 : expandFromAnchor (storeChannel store) (some anchor) s e maxN fuel2 = .ok r2)
    (hl1 : r1.hitLimit = false) (hl2 : r2.hitLimit = false) :
    ∀ i, i ∈ r1.sorted.map Msg.id ↔ i ∈ r2.sorted.map Msg.id := by
  have hc1 := fetchMessages_complete store s e maxN fuel1 r1 hwf hmax h1 hl1
  have hc2 := expand_complete store Hi Lo anchor s e maxN fuel2 r2 hwf hstore ha hc1.2 h2 hl2
  intro i
  simp only [List.mem_map]
  constructor
  · rintro ⟨m, hm, hmi⟩
    exact ⟨m, (hc2 m).mpr ((hc1.1 m).mp hm), hmi⟩
  · rintro ⟨m, hm, hmi⟩
    exact ⟨m, (hc1.1 m).mpr ((hc2 m).mp hm), hmi⟩

/-- With max = 0 neither strategy reports truncation, yet the expansion keeps
the seeded anchor while the linear walk returns nothing: the id sets differ,
so the equivalence fails without a lower bound on max. -/
theorem C2_max_zero_counterexample :
    StoreWF [Msg.mk 5 100 "a" "u" "x"]
    ∧ ((0 : Int) ≤ 100 ∧ (100 : Int) ≤ 200)
    ∧ fetchMessages (storeChannel [Msg.mk 5 100 "a" "u" "x"]) 0 200 0 3
        = .ok ⟨[], [], false, none⟩
    ∧ expandFromAnchor (storeChannel [Msg.mk 5 100 "a" "u" "x"])
        (some (Msg.mk 5 100 "a" "u" "x")) 0 200 0 3
        = .ok ⟨[Msg.mk 5 100 "a" "u" "x"], [Msg.mk 5 100 "a" "u" "x"], false, none, 0⟩
    ∧ ¬ (∀ i, i ∈ ([] : List Msg).map Msg.id
          ↔ i ∈ [Msg.mk 5 100 "a" "u" "x"].map Msg.id) := by
  refine ⟨List.pairwise_singleton _ _, by decide, rfl, rfl, ?_⟩
  intro hcon
  have := (hcon 5).mpr (by simp)
  simp at this

/-- Concrete instance of the corrected equivalence on a one-record store. -/
theorem C2_linear_expand_same_ids_witness :
    (StoreWF [Msg.mk 5 100 "a" "u" "x"]
      ∧ [Msg.mk 5 100 "a" "u" "x"] = [] ++ Msg.mk 5 100 "a" "u" "x" :: []
      ∧ 1 ≤ 5
      ∧ ((0 : Int) ≤ 100 ∧ (100 : Int) ≤ 200)
      ∧ fetchMessages (storeChannel [Msg.mk 5 100 "a" "u" "x"]) 0 200 5 3
          = .ok ⟨[Msg.mk 5 100 "a" "u" "x"], [Msg.mk 5 100 "a" "u" "x"], false, none⟩
      ∧ expandFromAnchor (storeChannel [Msg.mk 5 100 "a" "u" "x"])
          (some (Msg.mk 5 100 "a" "u" "x")) 0 200 5 3
          = .ok ⟨[Msg.mk 5 100 "a" "u" "x"], [Msg.mk 5 100 "a" "u" "x"], false, none, 2⟩)
    ∧ (∀ i, i ∈ (LinResult.mk [Msg.mk 5 100 "a" "u" "x"]
          [Msg.mk 5 100 "a" "u" "x"] false none).sorted.map Msg.id
        ↔ i ∈ (ExpResult.mk [Msg.mk 5 100 "a" "u" "x"]
          [Msg.mk 5 100 "a" "u" "x"] false none 2).sorted.map Msg.id) :=
  ⟨⟨List.pairwise_singleton _ _, rfl, by decide, by decide, rfl, rfl⟩,
   C2_linear_expand_same_ids [Msg.mk 5 100 "a" "u" "x"] [] [] (Msg.mk 5 100 "a" "u" "x")
     0 200 5 3 3
     ⟨[Msg.mk 5 100 "a" "u" "x"], [Msg.mk 5 100 "a" "u" "x"], false, none⟩
     ⟨[Msg.mk 5 100 "a" "u" "x"], [Msg.mk 5 100 "a" "u" "x"], false, none, 2⟩
     (List.pairwise_singleton _ _) rfl (by decide) (by decide) rfl rfl rfl rfl⟩
